import Mathlib

/-!
# ticker.h: cooperative task table and multi-rate tick flags

Shallow embedding of `src/ticker.h` (v1.2) and proofs about it.

Conventions of the embedding.
* `uint32_t` values are naturals; every place where the C code computes in 32 bits
  reduces modulo `4294967296 = 2^32` explicitly.
* A function pointer `cb *` and a `void *` are naturals (addresses), `0` being the null
  pointer.  What calling a function pointer does is given by an environment `cb_env`:
  a callback receives the scheduler and its argument, may change the scheduler and its own
  state `W`, and returns a `task_return_t`.
* `GetSysCount()` is the external time source: each function that reads it takes the
  value read as a parameter.
* The scheduler pointer `t` is never null in the embedding (the state is passed by value).
* `tickerTick` also returns the list of callback invocations it made, in order; this log
  is not part of the C state and only serves to state how often a callback ran.
* `tickerDelayMs` takes the values that the `GetSysCount()` calls of its loop return as a
  list and counts the polls and the watchdog calls; it yields `none` when the list is used
  up before the loop ends.
-/

namespace Ticker

/-! ## Constants and types (lines 36-97) -/

/-- Counter ticks per millisecond, platform default of line 37. -/
def SYSCNTxMS : Nat := 1

def syscntPERIOD_Hz1 : Nat := 1000 * SYSCNTxMS
def syscntPERIOD_Hz2 : Nat := 500 * SYSCNTxMS
def syscntPERIOD_Hz5 : Nat := 200 * SYSCNTxMS
def syscntPERIOD_Hz10 : Nat := 100 * SYSCNTxMS
def syscntPERIOD_Hz20 : Nat := 50 * SYSCNTxMS
def syscntPERIOD_Hz50 : Nat := 20 * SYSCNTxMS
def syscntPERIOD_Hz100 : Nat := 10 * SYSCNTxMS
def syscntPERIOD_Hz200 : Nat := 5 * SYSCNTxMS
def syscntPERIOD_Hz500 : Nat := 2 * SYSCNTxMS
def syscntPERIOD_Hz1000 : Nat := 1 * SYSCNTxMS

inductive task_return_t where
  | TASK_DONE
  | TASK_REPEAT
  | TASK_ERROR
deriving DecidableEq, Repr

open task_return_t

abbrev task_id_t := Int

def TASK_FLAG_NONE : Nat := 0
def TASK_FLAG_PERIODIC : Nat := 1

/-- One task slot; `func = 0` marks the slot FREE. -/
structure ticker_task_t where
  id : task_id_t
  flags : Nat
  arg : Nat
  func : Nat
  exp : Nat
  interval : Nat
deriving DecidableEq, Repr

abbrev TICKER_MAX_TASKS : Nat := 8

/-- The scheduler: time base, ten last-fire counters, ten one-bit rate flags, task table. -/
structure ticker_t where
  now : Nat
  tick1 : Nat
  tick2 : Nat
  tick5 : Nat
  tick10 : Nat
  tick20 : Nat
  tick50 : Nat
  tick100 : Nat
  tick200 : Nat
  tick500 : Nat
  tick1000 : Nat
  Hz1 : Bool
  Hz2 : Bool
  Hz5 : Bool
  Hz10 : Bool
  Hz20 : Bool
  Hz50 : Bool
  Hz100 : Bool
  Hz200 : Bool
  Hz500 : Bool
  Hz1000 : Bool
  tasks : Fin TICKER_MAX_TASKS → ticker_task_t

/-- Meaning of the function pointers: `env f t a w` is the call `f(t, a)` made when the
callback's own state is `w`; it yields the return value, the scheduler as the callback
left it, and the callback's new state. -/
abbrev cb_env (W : Type) := Nat → ticker_t → Nat → W → task_return_t × ticker_t × W

/-- One callback invocation made by the dispatch loop. -/
structure call_t where
  slot : Fin TICKER_MAX_TASKS
  func : Nat
  arg : Nat
  res : task_return_t
deriving DecidableEq, Repr

/-- State threaded through `tickerTick`: scheduler, callback state, invocation log. -/
structure dispatch_t (W : Type) where
  t : ticker_t
  w : W
  calls : List call_t

/-! ## tickerInit (lines 99-102) -/

/-- The function `tickerInit`; `c` is the value `GetSysCount()` returns. -/
def tickerInit (c : Nat) (t : ticker_t) : ticker_t :=
  { t with now := c, tick1 := c, tick2 := c, tick5 := c, tick10 := c, tick20 := c,
           tick50 := c, tick100 := c, tick200 := c, tick500 := c, tick1000 := c }

/-- The macro `DIFFU32(x, y)`: the difference `x - y` reduced to 32 bits. -/
def DIFFU32 (x y : Nat) : Nat := (((x : Int) - (y : Int)) % 4294967296).toNat

/-! ## tickerDelayMs (lines 106-112) -/

/-- Result of `tickerDelayMs`: how many times the loop condition was evaluated (polls),
how many times the watchdog function was called, and the state the watchdog calls left. -/
structure delay_t (W : Type) where
  polls : Nat
  kicks : Nat
  w : W

/-- The `while` loop of `tickerDelayMs` (lines 109-111).  The list holds the values that
the successive `GetSysCount()` calls of the loop condition return; `none` means that the
loop is still running when the list is used up.  `kick wd` is what the call `wd()` does. -/
def delayLoop {W : Type} (kick : Nat → W → W) (val wd now : Nat) :
    List Nat → delay_t W → Option (delay_t W)
  | [], _ => none
  | r :: rs, st =>
    if DIFFU32 r now < (val * SYSCNTxMS) % 4294967296 then
      if wd ≠ 0 then
        delayLoop kick val wd now rs
          { polls := st.polls + 1, kicks := st.kicks + 1, w := kick wd st.w }
      else
        delayLoop kick val wd now rs { polls := st.polls + 1, kicks := st.kicks, w := st.w }
    else some { polls := st.polls + 1, kicks := st.kicks, w := st.w }

/-- The function `tickerDelayMs`; `s` is the value `GetSysCount()` returns at line 107 and
`rs` the values it returns in the loop condition. -/
def tickerDelayMs {W : Type} (kick : Nat → W → W) (val wd : Nat) (s : Nat)
    (rs : List Nat) (w : W) : Option (delay_t W) :=
  delayLoop kick val wd s rs { polls := 0, kicks := 0, w := w }

/-! ## tickerScheduleTaskMs (lines 114-129) -/

/-- The `for` loop of `tickerScheduleTaskMs` over the indices still to visit. -/
def scheduleScan (t : ticker_t) (val func arg : Nat) (flags : Nat) :
    List (Fin TICKER_MAX_TASKS) → task_id_t × ticker_t
  | [] => (-1, t)
  | i :: rest =>
    if (t.tasks i).func = 0 then
      (((i : Nat) : Int),
        { t with
          tasks := Function.update t.tasks i
            { id := ((i : Nat) : Int)
              flags := flags
              arg := arg
              func := func
              exp := (t.now + (val * SYSCNTxMS) % 4294967296) % 4294967296
              interval := val } })
    else scheduleScan t val func arg flags rest

/-- The function `tickerScheduleTaskMs`: returned id and scheduler afterwards. -/
def tickerScheduleTaskMs (t : ticker_t) (val func arg : Nat) (flags : Nat) :
    task_id_t × ticker_t :=
  if func ≠ 0 then scheduleScan t val func arg flags (List.finRange TICKER_MAX_TASKS)
  else (-1, t)

/-! ## tickerTick (lines 131-197) -/

/-- Body of the dispatch loop (lines 135-142) for index `i`. -/
def dispatchSlot {W : Type} (env : cb_env W) (i : Fin TICKER_MAX_TASKS)
    (st : dispatch_t W) : dispatch_t W :=
  if (st.t.tasks i).func ≠ 0 ∧ st.t.now ≥ (st.t.tasks i).exp then
    let r := env (st.t.tasks i).func st.t (st.t.tasks i).arg st.w
    let t1 := r.2.1
    let log := st.calls ++ [⟨i, (st.t.tasks i).func, (st.t.tasks i).arg, r.1⟩]
    if ((t1.tasks i).flags &&& TASK_FLAG_PERIODIC) ≠ 0 ∧ TASK_REPEAT = r.1 then
      { t :=
          { t1 with
            tasks := Function.update t1.tasks i
              { t1.tasks i with
                exp := (t1.now + ((t1.tasks i).interval * SYSCNTxMS) % 4294967296)
                         % 4294967296 } }
        w := r.2.2
        calls := log }
    else
      { t :=
          { t1 with
            tasks := Function.update t1.tasks i { t1.tasks i with func := 0 } }
        w := r.2.2
        calls := log }
  else st

/-- The dispatch loop (lines 134-143). -/
def dispatchLoop {W : Type} (env : cb_env W) (st : dispatch_t W) : dispatch_t W :=
  (List.finRange TICKER_MAX_TASKS).foldl (fun s i => dispatchSlot env i s) st

/-- Line 145: all ten flags are cleared. -/
def clearFlags (t : ticker_t) : ticker_t :=
  { t with Hz1 := false, Hz2 := false, Hz5 := false, Hz10 := false, Hz20 := false,
           Hz50 := false, Hz100 := false, Hz200 := false, Hz500 := false, Hz1000 := false }

/-- Lines 147-150. -/
def rateHz1000 (t : ticker_t) : ticker_t :=
  if DIFFU32 t.now t.tick1000 ≥ syscntPERIOD_Hz1000 then
    { t with Hz1000 := true, tick1000 := (t.tick1000 + syscntPERIOD_Hz1000) % 4294967296 }
  else t

/-- Lines 152-155. -/
def rateHz500 (t : ticker_t) : ticker_t :=
  if DIFFU32 t.now t.tick500 ≥ syscntPERIOD_Hz500 then
    { t with Hz500 := true, tick500 := (t.tick500 + syscntPERIOD_Hz500) % 4294967296 }
  else t

/-- Lines 157-160. -/
def rateHz200 (t : ticker_t) : ticker_t :=
  if DIFFU32 t.now t.tick200 ≥ syscntPERIOD_Hz200 then
    { t with Hz200 := true, tick200 := (t.tick200 + syscntPERIOD_Hz200) % 4294967296 }
  else t

/-- Lines 162-165. -/
def rateHz100 (t : ticker_t) : ticker_t :=
  if DIFFU32 t.now t.tick100 ≥ syscntPERIOD_Hz100 then
    { t with Hz100 := true, tick100 := (t.tick100 + syscntPERIOD_Hz100) % 4294967296 }
  else t

/-- Lines 167-170. -/
def rateHz50 (t : ticker_t) : ticker_t :=
  if DIFFU32 t.now t.tick50 ≥ syscntPERIOD_Hz50 then
    { t with Hz50 := true, tick50 := (t.tick50 + syscntPERIOD_Hz50) % 4294967296 }
  else t

/-- Lines 172-175. -/
def rateHz20 (t : ticker_t) : ticker_t :=
  if DIFFU32 t.now t.tick20 ≥ syscntPERIOD_Hz20 then
    { t with Hz20 := true, tick20 := (t.tick20 + syscntPERIOD_Hz20) % 4294967296 }
  else t

/-- Lines 177-180. -/
def rateHz10 (t : ticker_t) : ticker_t :=
  if DIFFU32 t.now t.tick10 ≥ syscntPERIOD_Hz10 then
    { t with Hz10 := true, tick10 := (t.tick10 + syscntPERIOD_Hz10) % 4294967296 }
  else t

/-- Lines 182-185. -/
def rateHz5 (t : ticker_t) : ticker_t :=
  if DIFFU32 t.now t.tick5 ≥ syscntPERIOD_Hz5 then
    { t with Hz5 := true, tick5 := (t.tick5 + syscntPERIOD_Hz5) % 4294967296 }
  else t

/-- Lines 187-190. -/
def rateHz2 (t : ticker_t) : ticker_t :=
  if DIFFU32 t.now t.tick2 ≥ syscntPERIOD_Hz2 then
    { t with Hz2 := true, tick2 := (t.tick2 + syscntPERIOD_Hz2) % 4294967296 }
  else t

/-- Lines 193-196. -/
def rateHz1 (t : ticker_t) : ticker_t :=
  if DIFFU32 t.now t.tick1 ≥ syscntPERIOD_Hz1 then
    { t with Hz1 := true, tick1 := (t.tick1 + syscntPERIOD_Hz1) % 4294967296 }
  else t

/-- Lines 145-196: clear the flags, then the ten blocks in source order. -/
def rateFlags (t : ticker_t) : ticker_t :=
  rateHz1 (rateHz2 (rateHz5 (rateHz10 (rateHz20 (rateHz50 (rateHz100 (rateHz200
    (rateHz500 (rateHz1000 (clearFlags t))))))))))

/-- The function `tickerTick`; `n` is the value `GetSysCount()` returns at line 132.
The result carries the scheduler, the callbacks' state and the invocations made. -/
def tickerTick {W : Type} (env : cb_env W) (n : Nat) (t : ticker_t) (w : W) :
    dispatch_t W :=
  let st := dispatchLoop env { t := { t with now := n }, w := w, calls := [] }
  { st with t := rateFlags st.t }

/-- Successive `tickerTick` calls at the readings `ns`; the result after each call. -/
def tickerRun {W : Type} (env : cb_env W) : List Nat → ticker_t → W → List (dispatch_t W)
  | [], _, _ => []
  | n :: ns, t, w =>
    let r := tickerTick env n t w
    r :: tickerRun env ns r.t r.w

/-- The scheduler after the last of the `tickerTick` calls at the readings `ns`. -/
def tickerRunEnd {W : Type} (env : cb_env W) : List Nat → ticker_t → W → ticker_t
  | [], t, _ => t
  | n :: ns, t, w => tickerRunEnd env ns (tickerTick env n t w).t (tickerTick env n t w).w

/-! ## Auxiliary definitions used to state the properties -/

/-- The arguments of one `tickerScheduleTaskMs` call besides the scheduler. -/
structure sched_args where
  val : Nat
  func : Nat
  arg : Nat
  flags : Nat

/-- Consecutive `tickerScheduleTaskMs` calls: the ids returned, in order, and the scheduler
after the last call. -/
def scheduleAll : List sched_args → ticker_t → List task_id_t × ticker_t
  | [], t => ([], t)
  | c :: cs, t =>
    let r := tickerScheduleTaskMs t c.val c.func c.arg c.flags
    let rs := scheduleAll cs r.2
    (r.1 :: rs.1, rs.2)

/-- Slots below `k` are OCCUPIED and slots from `k` on are FREE. -/
def filledUpTo (t : ticker_t) (k : Nat) : Prop :=
  ∀ j : Fin TICKER_MAX_TASKS, ((j : Nat) < k → (t.tasks j).func ≠ 0) ∧
    (k ≤ (j : Nat) → (t.tasks j).func = 0)

/-- The ten rates, naming the field pairs `tickN` / `HzN` of `ticker_t`. -/
inductive rate_t where
  | Hz1 | Hz2 | Hz5 | Hz10 | Hz20 | Hz50 | Hz100 | Hz200 | Hz500 | Hz1000
deriving DecidableEq, Repr

/-- The period macro `syscntPERIOD_HzN` of a rate. -/
def period : rate_t → Nat
  | .Hz1 => syscntPERIOD_Hz1
  | .Hz2 => syscntPERIOD_Hz2
  | .Hz5 => syscntPERIOD_Hz5
  | .Hz10 => syscntPERIOD_Hz10
  | .Hz20 => syscntPERIOD_Hz20
  | .Hz50 => syscntPERIOD_Hz50
  | .Hz100 => syscntPERIOD_Hz100
  | .Hz200 => syscntPERIOD_Hz200
  | .Hz500 => syscntPERIOD_Hz500
  | .Hz1000 => syscntPERIOD_Hz1000

/-- The last-fire counter `tickN` of a rate. -/
def tickOf : rate_t → ticker_t → Nat
  | .Hz1, t => t.tick1
  | .Hz2, t => t.tick2
  | .Hz5, t => t.tick5
  | .Hz10, t => t.tick10
  | .Hz20, t => t.tick20
  | .Hz50, t => t.tick50
  | .Hz100, t => t.tick100
  | .Hz200, t => t.tick200
  | .Hz500, t => t.tick500
  | .Hz1000, t => t.tick1000

/-- The flag `HzN` of a rate. -/
def HzOf : rate_t → ticker_t → Bool
  | .Hz1, t => t.Hz1
  | .Hz2, t => t.Hz2
  | .Hz5, t => t.Hz5
  | .Hz10, t => t.Hz10
  | .Hz20, t => t.Hz20
  | .Hz50, t => t.Hz50
  | .Hz100, t => t.Hz100
  | .Hz200, t => t.Hz200
  | .Hz500, t => t.Hz500
  | .Hz1000, t => t.Hz1000

/-- The `if` block of `tickerTick` that belongs to a rate. -/
def rateBlock : rate_t → ticker_t → ticker_t
  | .Hz1 => rateHz1
  | .Hz2 => rateHz2
  | .Hz5 => rateHz5
  | .Hz10 => rateHz10
  | .Hz20 => rateHz20
  | .Hz50 => rateHz50
  | .Hz100 => rateHz100
  | .Hz200 => rateHz200
  | .Hz500 => rateHz500
  | .Hz1000 => rateHz1000

/-- The ten blocks in source order. -/
def rateOrder : List rate_t :=
  [.Hz1000, .Hz500, .Hz200, .Hz100, .Hz50, .Hz20, .Hz10, .Hz5, .Hz2, .Hz1]

/-- No callback changes the field `now`. -/
def keepsNow {W : Type} (env : cb_env W) : Prop :=
  ∀ f t a w, (env f t a w).2.1.now = t.now

/-- No callback changes slot `i` of the task table. -/
def keepsSlot {W : Type} (env : cb_env W) (i : Fin TICKER_MAX_TASKS) : Prop :=
  ∀ f t a w, (env f t a w).2.1.tasks i = t.tasks i

/-- No callback changes one of the ten last-fire counters. -/
def keepsTicks {W : Type} (env : cb_env W) : Prop :=
  ∀ f t a w r, tickOf r (env f t a w).2.1 = tickOf r t

/-- The logged invocations that were made from slot `i`. -/
def slotCalls (i : Fin TICKER_MAX_TASKS) (calls : List call_t) : List call_t :=
  calls.filter (fun c => decide (c.slot = i))

/-- The slot after its task was dispatched with callback result `res` at time `now`:
re-armed when PERIODIC and `res` is `TASK_REPEAT`, freed otherwise (lines 137-141). -/
def afterCall (s : ticker_task_t) (now : Nat) (res : task_return_t) : ticker_task_t :=
  if (s.flags &&& TASK_FLAG_PERIODIC) ≠ 0 ∧ TASK_REPEAT = res then
    { s with exp := (now + s.interval) % 4294967296 }
  else { s with func := 0 }

/-- Reads `TASK_ERROR` as `TASK_DONE` and leaves the other two values. -/
def asDone : task_return_t → task_return_t
  | TASK_ERROR => TASK_DONE
  | r => r

/-- The environment in which every callback that would return `TASK_ERROR` returns
`TASK_DONE` instead, with the same effects. -/
def errAsDone {W : Type} (env : cb_env W) : cb_env W :=
  fun f t a w => (asDone (env f t a w).1, (env f t a w).2)

/-- A FREE slot with all fields zero. -/
def freeTask : ticker_task_t :=
  { id := 0, flags := 0, arg := 0, func := 0, exp := 0, interval := 0 }

/-- A scheduler whose time base and last-fire counters all hold `c`, with no flag raised
and an all-FREE table. -/
def idleTicker (c : Nat) : ticker_t :=
  { now := c, tick1 := c, tick2 := c, tick5 := c, tick10 := c, tick20 := c, tick50 := c,
    tick100 := c, tick200 := c, tick500 := c, tick1000 := c,
    Hz1 := false, Hz2 := false, Hz5 := false, Hz10 := false, Hz20 := false, Hz50 := false,
    Hz100 := false, Hz200 := false, Hz500 := false, Hz1000 := false,
    tasks := fun _ => freeTask }

/-- Callbacks that touch nothing and return `TASK_REPEAT`. -/
def envRepeat : cb_env Unit := fun _ t _ w => (TASK_REPEAT, t, w)

/-- Callbacks that touch nothing and return `TASK_ERROR`. -/
def envError : cb_env Unit := fun _ t _ w => (TASK_ERROR, t, w)

/-- The frequency in Hz that a rate stands for. -/
def rateHz : rate_t → Nat
  | .Hz1 => 1
  | .Hz2 => 2
  | .Hz5 => 5
  | .Hz10 => 10
  | .Hz20 => 20
  | .Hz50 => 50
  | .Hz100 => 100
  | .Hz200 => 200
  | .Hz500 => 500
  | .Hz1000 => 1000

/-- Firing pattern with the schedule anchored to `t0`: the invocation number `k` happens in
the first tick call whose time is at least `t0 + k * I`. -/
def anchoredFirings (t0 I : Nat) : Nat → List Nat → List Bool
  | _, [] => []
  | k, n :: ns =>
    if t0 + k * I ≤ n then true :: anchoredFirings t0 I (k + 1) ns
    else false :: anchoredFirings t0 I k ns

/-- Firing pattern with the schedule re-anchored at each firing: with `a` the time of the
tick call of the previous invocation (the scheduling time before the first one), the next
invocation happens in the first tick call whose time is at least `a + I`. -/
def rearmedFirings (I : Nat) : Nat → List Nat → List Bool
  | _, [] => []
  | a, n :: ns =>
    if a + I ≤ n then true :: rearmedFirings I n ns
    else false :: rearmedFirings I a ns

/-- Callbacks that touch nothing and return `TASK_DONE`. -/
def envDone : cb_env Unit := fun _ t _ w => (TASK_DONE, t, w)

/-- Eight scheduling requests with non-null callbacks. -/
def eightCalls : List sched_args :=
  [⟨10, 1, 0, 0⟩, ⟨20, 2, 0, 1⟩, ⟨30, 3, 0, 0⟩, ⟨40, 4, 0, 1⟩,
   ⟨50, 5, 0, 0⟩, ⟨60, 6, 0, 1⟩, ⟨70, 7, 0, 0⟩, ⟨80, 8, 0, 1⟩]

/-- The scheduler at time 1000 holding one PERIODIC task of interval 30 in slot 0. -/
def periodicTicker : ticker_t :=
  (tickerScheduleTaskMs (idleTicker 1000) 30 1 0 TASK_FLAG_PERIODIC).2

/-- The scheduler at time 1000 holding one ONE_SHOT task of interval 50 in slot 0. -/
def oneShotTicker : ticker_t :=
  (tickerScheduleTaskMs (idleTicker 1000) 50 1 0 TASK_FLAG_NONE).2

/-- Callback 1 schedules a ONE_SHOT task with interval 0 and callback 2 and returns
`TASK_DONE`; every other callback touches nothing and returns `TASK_DONE`. -/
def envSpawn : cb_env Unit := fun f t _ w =>
  if f = 1 then (TASK_DONE, (tickerScheduleTaskMs t 0 2 0 TASK_FLAG_NONE).2, w)
  else (TASK_DONE, t, w)

/-- The scheduler at time 1000 holding one ONE_SHOT task with callback 1 and interval 10
in slot 0. -/
def spawnTicker : ticker_t :=
  (tickerScheduleTaskMs (idleTicker 1000) 10 1 0 TASK_FLAG_NONE).2

/-- The scheduler at time 1005 in which slot 0 has just been freed and slot 1 holds a
ONE_SHOT task with callback 1 that expires at 1010: two tasks were scheduled at time 1000
and the first one, in slot 0, fired in the tick call at 1005. -/
def spawnBelowTicker : ticker_t :=
  (tickerTick envSpawn 1005
    (tickerScheduleTaskMs (tickerScheduleTaskMs (idleTicker 1000) 5 3 0 TASK_FLAG_NONE).2
      10 1 0 TASK_FLAG_NONE).2 ()).t

/-- Callbacks of the end-to-end scenario: callback 1 (task A) returns `TASK_DONE`;
callback 2 (task B) returns `TASK_REPEAT` on its first three invocations and `TASK_DONE`
afterwards.  The callbacks' state counts the invocations of callback 2. -/
def envScenario : cb_env Nat := fun f t _ k =>
  if f = 1 then (TASK_DONE, t, k)
  else if k < 3 then (TASK_REPEAT, t, k + 1)
  else (TASK_DONE, t, k + 1)

/-- The scheduler of the end-to-end scenario: initialised at 1000 with an all-FREE table,
then task A (ONE_SHOT, interval 50) and task B (PERIODIC, interval 30) are scheduled. -/
def scenarioTicker : ticker_t :=
  (tickerScheduleTaskMs
    (tickerScheduleTaskMs (tickerInit 1000 (idleTicker 0)) 50 1 0 TASK_FLAG_NONE).2
    30 2 0 TASK_FLAG_PERIODIC).2

/-- Every callback changes the task table only through `tickerScheduleTaskMs` calls:
the table it leaves is the one some sequence of such calls produces. -/
def onlySchedules {W : Type} (env : cb_env W) : Prop :=
  ∀ f t a w, ∃ calls : List sched_args,
    (env f t a w).2.1.tasks = (scheduleAll calls t).2.tasks

/-- The scheduler states reached from an all-FREE table by `tickerScheduleTaskMs` and
`tickerTick` calls, in any order and with any arguments and readings. -/
inductive Reachable {W : Type} (env : cb_env W) : ticker_t → Prop where
  | start (t : ticker_t) : (∀ i, (t.tasks i).func = 0) → Reachable env t
  | schedule (t : ticker_t) (val func arg flags : Nat) :
      Reachable env t → Reachable env (tickerScheduleTaskMs t val func arg flags).2
  | tick (n : Nat) (t : ticker_t) (w : W) :
      Reachable env t → Reachable env (tickerTick env n t w).t

/-- The algorithm of one rate block on unbounded naturals: `l` is the last-fire time and
the list holds the true times of the tick calls.  A call at time `T` raises the flag iff
`T - l >= p` and then advances `l` by `p`.  The result lists, per call, the flag and the
last-fire time after the call. -/
def unboundedRate (p : Nat) : Nat → List Nat → List (Bool × Nat)
  | _, [] => []
  | l, T :: Ts =>
    if p ≤ T - l then (true, l + p) :: unboundedRate p (l + p) Ts
    else (false, l) :: unboundedRate p l Ts

/-- In the unbounded run the lag `T - l` seen by every tick call is below `2^32`. -/
def lagBounded (p : Nat) : Nat → List Nat → Prop
  | _, [] => True
  | l, T :: Ts => T - l < 4294967296 ∧ lagBounded p (if p ≤ T - l then l + p else l) Ts

/-- The number of tick calls of a run after which the flag of rate `r` was 1. -/
def pulses {W : Type} (r : rate_t) (rs : List (dispatch_t W)) : Nat :=
  rs.countP (fun x => HzOf r x.t)

/-! # Theorems -/

set_option maxRecDepth 100000

/-! ## Scheduling: `tickerScheduleTaskMs` -/

theorem scheduleScan_full (t : ticker_t) (val func arg flags : Nat)
    (l : List (Fin TICKER_MAX_TASKS)) (h : ∀ i ∈ l, (t.tasks i).func ≠ 0) :
    scheduleScan t val func arg flags l = (-1, t) := by
  induction l with
  | nil => rfl
  | cons a l ih =>
    have ha : (t.tasks a).func ≠ 0 := h a (List.mem_cons_self a l)
    simp only [scheduleScan, if_neg ha]
    exact ih (fun i hi => h i (List.mem_cons_of_mem a hi))

theorem scheduleScan_found (t : ticker_t) (val func arg flags : Nat)
    (l : List (Fin TICKER_MAX_TASKS)) (h : ∃ i ∈ l, (t.tasks i).func = 0) :
    ∃ l1 i l2, l = l1 ++ i :: l2 ∧ (∀ j ∈ l1, (t.tasks j).func ≠ 0) ∧ (t.tasks i).func = 0 ∧
      scheduleScan t val func arg flags l =
        (((i : Nat) : Int),
          { t with
            tasks := Function.update t.tasks i
              { id := ((i : Nat) : Int), flags := flags, arg := arg, func := func,
                exp := (t.now + (val * SYSCNTxMS) % 4294967296) % 4294967296,
                interval := val } }) := by
  induction l with
  | nil => obtain ⟨i, hi, _⟩ := h; cases hi
  | cons a l ih =>
    by_cases ha : (t.tasks a).func = 0
    · exact ⟨[], a, l, rfl, by simp, ha, by simp only [scheduleScan, if_pos ha]⟩
    · have h2 : ∃ i ∈ l, (t.tasks i).func = 0 := by
        obtain ⟨i, hi, hf⟩ := h
        rcases List.mem_cons.mp hi with rfl | hi
        · exact absurd hf ha
        · exact ⟨i, hi, hf⟩
      obtain ⟨l1, i, l2, hl, hocc, hfree, hres⟩ := ih h2
      refine ⟨a :: l1, i, l2, by rw [hl]; rfl, ?_, hfree, ?_⟩
      · intro j hj
        rcases List.mem_cons.mp hj with rfl | hj
        · exact ha
        · exact hocc j hj
      · simp only [scheduleScan, if_neg ha]
        exact hres

theorem finRange_split_lt {n : Nat} (l1 l2 : List (Fin n)) (i : Fin n)
    (h : List.finRange n = l1 ++ i :: l2) (j : Fin n) (hj : j < i) : j ∈ l1 := by
  have hmem : j ∈ l1 ++ i :: l2 := h ▸ List.mem_finRange j
  have hpw : List.Pairwise (· < ·) (l1 ++ i :: l2) := h ▸ List.pairwise_lt_finRange n
  rcases List.mem_append.mp hmem with h1 | h1
  · exact h1
  · rcases List.mem_cons.mp h1 with rfl | h2
    · exact absurd hj (lt_irrefl _)
    · have := (List.pairwise_cons.mp (List.pairwise_append.mp hpw).2.1).1 j h2
      exact absurd hj (not_lt_of_gt this)

/-- Shape of a successful call: the lowest FREE index receives the new task. -/
theorem schedule_lowest_free (t : ticker_t) (val func arg flags : Nat)
    (hfunc : func ≠ 0) (hfree : ∃ i, (t.tasks i).func = 0) :
    ∃ i : Fin TICKER_MAX_TASKS,
      (t.tasks i).func = 0 ∧ (∀ j, j < i → (t.tasks j).func ≠ 0) ∧
      tickerScheduleTaskMs t val func arg flags =
        (((i : Nat) : Int),
          { t with
            tasks := Function.update t.tasks i
              { id := ((i : Nat) : Int), flags := flags, arg := arg, func := func,
                exp := (t.now + val) % 4294967296, interval := val } }) := by
  obtain ⟨i0, hi0⟩ := hfree
  obtain ⟨l1, i, l2, hl, hocc, hfr, hres⟩ :=
    scheduleScan_found t val func arg flags (List.finRange TICKER_MAX_TASKS)
      ⟨i0, List.mem_finRange i0, hi0⟩
  refine ⟨i, hfr, fun j hj => hocc j (finRange_split_lt l1 l2 i hl j hj), ?_⟩
  rw [tickerScheduleTaskMs, if_pos hfunc, hres]
  simp [SYSCNTxMS]

theorem schedule_all_occupied (t : ticker_t) (val func arg flags : Nat)
    (hfull : ∀ i, (t.tasks i).func ≠ 0) :
    tickerScheduleTaskMs t val func arg flags = (-1, t) := by
  unfold tickerScheduleTaskMs
  split
  · exact scheduleScan_full t val func arg flags _ (fun i _ => hfull i)
  · rfl

theorem schedule_filledUpTo (t : ticker_t) (k : Nat) (val func arg flags : Nat)
    (hfunc : func ≠ 0) (hk : k < TICKER_MAX_TASKS) (h : filledUpTo t k) :
    (tickerScheduleTaskMs t val func arg flags).1 = (k : Int) ∧
      filledUpTo (tickerScheduleTaskMs t val func arg flags).2 (k + 1) := by
  obtain ⟨i, hfr, hlow, hres⟩ :=
    schedule_lowest_free t val func arg flags hfunc ⟨⟨k, hk⟩, (h ⟨k, hk⟩).2 (le_refl k)⟩
  have hik : (i : Nat) = k := by
    have h1 : ¬ (i : Nat) < k := fun hlt => (h i).1 hlt hfr
    have h2 : ¬ k < (i : Nat) := fun hlt =>
      hlow ⟨k, hk⟩ (Fin.mk_lt_of_lt_val hlt) ((h ⟨k, hk⟩).2 (le_refl k))
    omega
  rw [hres]
  refine ⟨by simp [hik], fun j => ?_⟩
  by_cases hj : j = i
  · subst hj
    simp only [Function.update_same]
    exact ⟨fun _ => hfunc, fun hle => by omega⟩
  · simp only [Function.update_noteq hj]
    have hne : (j : Nat) ≠ (i : Nat) := fun e => hj (Fin.ext e)
    exact ⟨fun hlt => (h j).1 (by omega), fun hle => (h j).2 (by omega)⟩

theorem scheduleAll_filledUpTo (calls : List sched_args) :
    ∀ (t : ticker_t) (k : Nat), (∀ c ∈ calls, c.func ≠ 0) →
      k + calls.length ≤ TICKER_MAX_TASKS → filledUpTo t k →
      (scheduleAll calls t).1 = (List.range' k calls.length).map (fun m : Nat => (m : Int)) ∧
        filledUpTo (scheduleAll calls t).2 (k + calls.length) := by
  induction calls with
  | nil => intro t k _ _ h; exact ⟨rfl, h⟩
  | cons c cs ih =>
    intro t k hc hlen h
    have hlen2 : k + (cs.length + 1) ≤ TICKER_MAX_TASKS := hlen
    obtain ⟨h1, h2⟩ := schedule_filledUpTo t k c.val c.func c.arg c.flags
      (hc c (List.mem_cons_self c cs)) (by omega) h
    obtain ⟨h3, h4⟩ := ih (tickerScheduleTaskMs t c.val c.func c.arg c.flags).2 (k + 1)
      (fun d hd => hc d (List.mem_cons_of_mem c hd)) (by omega) h2
    refine ⟨?_, ?_⟩
    · simp only [scheduleAll, List.length_cons, List.range'_succ, List.map_cons, h1, h3]
    · have e : k + (c :: cs).length = k + 1 + cs.length := by simp; omega
      rw [e]; exact h4

/-- Claim C1.  When at least one slot is FREE and the callback is not null,
`tickerScheduleTaskMs` returns the lowest index `i` whose slot is FREE (slot `i` is FREE and
every slot below it is OCCUPIED).  Afterwards slot `i` holds `interval = val`,
`exp = (now + val) mod 2^32` taken from the stored `now`, the callback, the argument, the
flags and `id = i`; every other slot is unchanged, and so are `now`, the ten last-fire
counters and the ten rate flags (the scheduler differs from the old one in `tasks` only). -/
theorem tickerScheduleTaskMs_first_free (t : ticker_t) (val func arg flags : Nat)
    (hfunc : func ≠ 0) (hfree : ∃ i, (t.tasks i).func = 0) :
    ∃ i : Fin TICKER_MAX_TASKS,
      (t.tasks i).func = 0 ∧ (∀ j, j < i → (t.tasks j).func ≠ 0) ∧
      (tickerScheduleTaskMs t val func arg flags).1 = ((i : Nat) : Int) ∧
      (tickerScheduleTaskMs t val func arg flags).2.tasks i =
        { id := ((i : Nat) : Int), flags := flags, arg := arg, func := func,
          exp := (t.now + val) % 4294967296, interval := val } ∧
      (∀ j, j ≠ i → (tickerScheduleTaskMs t val func arg flags).2.tasks j = t.tasks j) ∧
      (tickerScheduleTaskMs t val func arg flags).2 =
        { t with tasks := (tickerScheduleTaskMs t val func arg flags).2.tasks } := by
  obtain ⟨i, hfr, hlow, hres⟩ := schedule_lowest_free t val func arg flags hfunc hfree
  refine ⟨i, hfr, hlow, ?_⟩
  rw [hres]
  refine ⟨rfl, by simp, fun j hj => by simp [Function.update_noteq hj], rfl⟩

theorem tickerScheduleTaskMs_first_free_witness :
    ((1 : Nat) ≠ 0 ∧ ∃ i, ((idleTicker 100).tasks i).func = 0) ∧
    ∃ i : Fin TICKER_MAX_TASKS,
      ((idleTicker 100).tasks i).func = 0 ∧ (∀ j, j < i → ((idleTicker 100).tasks j).func ≠ 0) ∧
      (tickerScheduleTaskMs (idleTicker 100) 50 1 7 0).1 = ((i : Nat) : Int) ∧
      (tickerScheduleTaskMs (idleTicker 100) 50 1 7 0).2.tasks i =
        { id := ((i : Nat) : Int), flags := 0, arg := 7, func := 1,
          exp := ((idleTicker 100).now + 50) % 4294967296, interval := 50 } ∧
      (∀ j, j ≠ i →
        (tickerScheduleTaskMs (idleTicker 100) 50 1 7 0).2.tasks j = (idleTicker 100).tasks j) ∧
      (tickerScheduleTaskMs (idleTicker 100) 50 1 7 0).2 =
        { idleTicker 100 with tasks := (tickerScheduleTaskMs (idleTicker 100) 50 1 7 0).2.tasks } :=
  ⟨⟨by decide, ⟨0, rfl⟩⟩,
    tickerScheduleTaskMs_first_free (idleTicker 100) 50 1 7 0 (by decide) ⟨0, rfl⟩⟩

/-- Claim C2.  When all eight slots of `t` are OCCUPIED, `tickerScheduleTaskMs` returns `-1`
and leaves the scheduler unchanged, whatever the callback.  In particular, from an all-FREE
table `t0`, eight consecutive calls with non-null callbacks return `0, 1, ..., 7` and fill
the table, and a ninth call returns `-1` and leaves the scheduler, hence each of the eight
slots, as it was. -/
theorem tickerScheduleTaskMs_full (t t0 : ticker_t) (val func arg flags : Nat)
    (calls : List sched_args)
    (hfull : ∀ i, (t.tasks i).func ≠ 0)
    (hfree : ∀ i, (t0.tasks i).func = 0) (hlen : calls.length = TICKER_MAX_TASKS)
    (hcalls : ∀ c ∈ calls, c.func ≠ 0) :
    tickerScheduleTaskMs t val func arg flags = (-1, t) ∧
      (scheduleAll calls t0).1 = [0, 1, 2, 3, 4, 5, 6, 7] ∧
      (∀ i, ((scheduleAll calls t0).2.tasks i).func ≠ 0) ∧
      tickerScheduleTaskMs (scheduleAll calls t0).2 val func arg flags =
        (-1, (scheduleAll calls t0).2) := by
  have h0 : filledUpTo t0 0 := fun j => ⟨fun h => absurd h (Nat.not_lt_zero _), fun _ => hfree j⟩
  obtain ⟨h1, h2⟩ := scheduleAll_filledUpTo calls t0 0 hcalls (by omega) h0
  have hocc : ∀ i, ((scheduleAll calls t0).2.tasks i).func ≠ 0 := fun i =>
    (h2 i).1 (by have := i.isLt; omega)
  refine ⟨schedule_all_occupied t val func arg flags hfull, ?_, hocc,
    schedule_all_occupied _ val func arg flags hocc⟩
  rw [h1, hlen]; rfl

theorem tickerScheduleTaskMs_full_witness :
    ((∀ i, ((scheduleAll eightCalls (idleTicker 0)).2.tasks i).func ≠ 0) ∧
      (∀ i, ((idleTicker 0).tasks i).func = 0) ∧ eightCalls.length = TICKER_MAX_TASKS ∧
      (∀ c ∈ eightCalls, c.func ≠ 0)) ∧
    (tickerScheduleTaskMs (scheduleAll eightCalls (idleTicker 0)).2 90 9 0 0 =
        (-1, (scheduleAll eightCalls (idleTicker 0)).2) ∧
      (scheduleAll eightCalls (idleTicker 0)).1 = [0, 1, 2, 3, 4, 5, 6, 7] ∧
      (∀ i, ((scheduleAll eightCalls (idleTicker 0)).2.tasks i).func ≠ 0) ∧
      tickerScheduleTaskMs (scheduleAll eightCalls (idleTicker 0)).2 90 9 0 0 =
        (-1, (scheduleAll eightCalls (idleTicker 0)).2)) :=
  ⟨⟨by decide, fun _ => rfl, rfl, by decide⟩,
    tickerScheduleTaskMs_full (scheduleAll eightCalls (idleTicker 0)).2 (idleTicker 0)
      90 9 0 0 eightCalls (by decide) (fun _ => rfl) rfl (by decide)⟩

/-- Claim C3.  With a null callback `tickerScheduleTaskMs` returns `-1`, the value it also
returns when the table is full, and leaves the scheduler unchanged, for every scheduler
state, interval, argument and flags. -/
theorem tickerScheduleTaskMs_null_callback (t : ticker_t) (val arg flags : Nat) :
    tickerScheduleTaskMs t val 0 arg flags = (-1, t) := by
  simp [tickerScheduleTaskMs]

/-! ## The ten rate blocks of `tickerTick` -/

theorem rateBlock_now (r : rate_t) (t : ticker_t) : (rateBlock r t).now = t.now := by
  cases r <;> simp only [rateBlock, rateHz1, rateHz2, rateHz5, rateHz10, rateHz20, rateHz50,
    rateHz100, rateHz200, rateHz500, rateHz1000] <;> split <;> rfl

theorem rateBlock_tasks (r : rate_t) (t : ticker_t) : (rateBlock r t).tasks = t.tasks := by
  cases r <;> simp only [rateBlock, rateHz1, rateHz2, rateHz5, rateHz10, rateHz20, rateHz50,
    rateHz100, rateHz200, rateHz500, rateHz1000] <;> split <;> rfl

theorem rateBlock_tick_self (r : rate_t) (t : ticker_t) :
    tickOf r (rateBlock r t) =
      if period r ≤ DIFFU32 t.now (tickOf r t) then (tickOf r t + period r) % 4294967296
      else tickOf r t := by
  cases r <;> simp only [rateBlock, rateHz1, rateHz2, rateHz5, rateHz10, rateHz20, rateHz50,
    rateHz100, rateHz200, rateHz500, rateHz1000, tickOf, period, ge_iff_le] <;>
    split <;> rfl

theorem rateBlock_Hz_self (r : rate_t) (t : ticker_t) :
    HzOf r (rateBlock r t) =
      if period r ≤ DIFFU32 t.now (tickOf r t) then true else HzOf r t := by
  cases r <;> simp only [rateBlock, rateHz1, rateHz2, rateHz5, rateHz10, rateHz20, rateHz50,
    rateHz100, rateHz200, rateHz500, rateHz1000, tickOf, HzOf, period, ge_iff_le] <;>
    split <;> rfl

theorem rateBlock_tick_other (r r' : rate_t) (t : ticker_t) (h : r' ≠ r) :
    tickOf r' (rateBlock r t) = tickOf r' t := by
  cases r <;> cases r' <;> first
    | exact absurd rfl h
    | (simp only [rateBlock, rateHz1, rateHz2, rateHz5, rateHz10, rateHz20, rateHz50,
        rateHz100, rateHz200, rateHz500, rateHz1000, tickOf]; split <;> rfl)

theorem rateBlock_Hz_other (r r' : rate_t) (t : ticker_t) (h : r' ≠ r) :
    HzOf r' (rateBlock r t) = HzOf r' t := by
  cases r <;> cases r' <;> first
    | exact absurd rfl h
    | (simp only [rateBlock, rateHz1, rateHz2, rateHz5, rateHz10, rateHz20, rateHz50,
        rateHz100, rateHz200, rateHz500, rateHz1000, HzOf]; split <;> rfl)

theorem rateFlags_eq_foldl (t : ticker_t) :
    rateFlags t = rateOrder.foldl (fun s r => rateBlock r s) (clearFlags t) := by
  simp only [rateFlags, rateOrder, List.foldl_cons, List.foldl_nil, rateBlock]

theorem foldl_rateBlock_now (l : List rate_t) (t : ticker_t) :
    (l.foldl (fun s r => rateBlock r s) t).now = t.now := by
  induction l generalizing t with
  | nil => rfl
  | cons a l ih => rw [List.foldl_cons, ih, rateBlock_now]

theorem foldl_rateBlock_tasks (l : List rate_t) (t : ticker_t) :
    (l.foldl (fun s r => rateBlock r s) t).tasks = t.tasks := by
  induction l generalizing t with
  | nil => rfl
  | cons a l ih => rw [List.foldl_cons, ih, rateBlock_tasks]

theorem foldl_rateBlock_other (l : List rate_t) (r : rate_t) (hr : r ∉ l) (t : ticker_t) :
    tickOf r (l.foldl (fun s r => rateBlock r s) t) = tickOf r t ∧
      HzOf r (l.foldl (fun s r => rateBlock r s) t) = HzOf r t := by
  induction l generalizing t with
  | nil => exact ⟨rfl, rfl⟩
  | cons a l ih =>
    have hne : r ≠ a := fun e => hr (e ▸ List.mem_cons_self _ _)
    have hl : r ∉ l := fun h => hr (List.mem_cons_of_mem a h)
    rw [List.foldl_cons, (ih hl _).1, (ih hl _).2, rateBlock_tick_other a r t hne,
      rateBlock_Hz_other a r t hne]
    exact ⟨rfl, rfl⟩

theorem foldl_rateBlock_mem (l : List rate_t) (r : rate_t) (hr : r ∈ l) (hnd : l.Nodup)
    (t : ticker_t) :
    tickOf r (l.foldl (fun s r => rateBlock r s) t) =
        (if period r ≤ DIFFU32 t.now (tickOf r t) then (tickOf r t + period r) % 4294967296
         else tickOf r t) ∧
      HzOf r (l.foldl (fun s r => rateBlock r s) t) =
        (if period r ≤ DIFFU32 t.now (tickOf r t) then true else HzOf r t) := by
  induction l generalizing t with
  | nil => cases hr
  | cons a l ih =>
    obtain ⟨hal, hnd2⟩ := List.nodup_cons.mp hnd
    rw [List.foldl_cons]
    by_cases hra : r = a
    · subst hra
      obtain ⟨h1, h2⟩ := foldl_rateBlock_other l r hal (rateBlock r t)
      rw [h1, h2, rateBlock_tick_self, rateBlock_Hz_self]
      exact ⟨rfl, rfl⟩
    · have hl : r ∈ l := by
        rcases List.mem_cons.mp hr with h | h
        · exact absurd h hra
        · exact h
      obtain ⟨h1, h2⟩ := ih hl hnd2 (rateBlock a t)
      rw [h1, h2, rateBlock_now, rateBlock_tick_other a r t hra, rateBlock_Hz_other a r t hra]
      exact ⟨rfl, rfl⟩

theorem rateFlags_now (t : ticker_t) : (rateFlags t).now = t.now := by
  rw [rateFlags_eq_foldl, foldl_rateBlock_now]; rfl

theorem rateFlags_tasks (t : ticker_t) : (rateFlags t).tasks = t.tasks := by
  rw [rateFlags_eq_foldl, foldl_rateBlock_tasks]; rfl

theorem tickOf_clearFlags (r : rate_t) (t : ticker_t) : tickOf r (clearFlags t) = tickOf r t := by
  cases r <;> rfl

theorem HzOf_clearFlags (r : rate_t) (t : ticker_t) : HzOf r (clearFlags t) = false := by
  cases r <;> rfl

theorem rateFlags_tick (r : rate_t) (t : ticker_t) :
    tickOf r (rateFlags t) =
      if period r ≤ DIFFU32 t.now (tickOf r t) then (tickOf r t + period r) % 4294967296
      else tickOf r t := by
  have hr : r ∈ rateOrder := by cases r <;> decide
  have h := (foldl_rateBlock_mem rateOrder r hr (by decide) (clearFlags t)).1
  rw [tickOf_clearFlags] at h
  rw [rateFlags_eq_foldl, h]; rfl

theorem rateFlags_Hz (r : rate_t) (t : ticker_t) :
    HzOf r (rateFlags t) = decide (period r ≤ DIFFU32 t.now (tickOf r t)) := by
  have hr : r ∈ rateOrder := by cases r <;> decide
  have h := (foldl_rateBlock_mem rateOrder r hr (by decide) (clearFlags t)).2
  rw [tickOf_clearFlags, HzOf_clearFlags] at h
  rw [rateFlags_eq_foldl, h]
  have : (clearFlags t).now = t.now := rfl
  rw [this]
  by_cases hc : period r ≤ DIFFU32 t.now (tickOf r t) <;> simp [hc]

/-! ## The dispatch loop of `tickerTick` -/

/-- The loop body in one piece: a due slot is called, then re-armed or freed. -/
theorem dispatchSlot_eq {W : Type} (env : cb_env W) (i : Fin TICKER_MAX_TASKS)
    (st : dispatch_t W) :
    dispatchSlot env i st =
      if (st.t.tasks i).func ≠ 0 ∧ st.t.now ≥ (st.t.tasks i).exp then
        { t :=
            { (env (st.t.tasks i).func st.t (st.t.tasks i).arg st.w).2.1 with
              tasks := Function.update
                (env (st.t.tasks i).func st.t (st.t.tasks i).arg st.w).2.1.tasks i
                (afterCall ((env (st.t.tasks i).func st.t (st.t.tasks i).arg st.w).2.1.tasks i)
                  (env (st.t.tasks i).func st.t (st.t.tasks i).arg st.w).2.1.now
                  (env (st.t.tasks i).func st.t (st.t.tasks i).arg st.w).1) }
          w := (env (st.t.tasks i).func st.t (st.t.tasks i).arg st.w).2.2
          calls := st.calls ++
            [⟨i, (st.t.tasks i).func, (st.t.tasks i).arg,
              (env (st.t.tasks i).func st.t (st.t.tasks i).arg st.w).1⟩] }
      else st := by
  simp only [dispatchSlot, afterCall, SYSCNTxMS, Nat.mul_one, Nat.add_mod_mod]
  split_ifs <;> rfl

theorem dispatchSlot_now {W : Type} (env : cb_env W) (hn : keepsNow env)
    (j : Fin TICKER_MAX_TASKS) (st : dispatch_t W) :
    (dispatchSlot env j st).t.now = st.t.now := by
  rw [dispatchSlot_eq]
  split_ifs
  · exact hn _ _ _ _
  · rfl

theorem tickOf_tasks_update (r : rate_t) (t : ticker_t)
    (f : Fin TICKER_MAX_TASKS → ticker_task_t) :
    tickOf r { t with tasks := f } = tickOf r t := by
  cases r <;> rfl

theorem dispatchSlot_ticks {W : Type} (env : cb_env W) (hk : keepsTicks env)
    (j : Fin TICKER_MAX_TASKS) (st : dispatch_t W) (r : rate_t) :
    tickOf r (dispatchSlot env j st).t = tickOf r st.t := by
  rw [dispatchSlot_eq]
  split_ifs
  · simp only [tickOf_tasks_update, hk _ _ _ _ r]
  · rfl

theorem dispatchSlot_other {W : Type} (env : cb_env W) (i j : Fin TICKER_MAX_TASKS)
    (hij : i ≠ j) (hs : keepsSlot env i) (st : dispatch_t W) :
    (dispatchSlot env j st).t.tasks i = st.t.tasks i ∧
      slotCalls i (dispatchSlot env j st).calls = slotCalls i st.calls := by
  have hji : ¬ j = i := fun e => hij e.symm
  rw [dispatchSlot_eq]
  split_ifs
  · simp [Function.update_noteq hij, hs _ _ _ _, slotCalls, List.filter_append, hji]
  · exact ⟨rfl, rfl⟩

theorem dispatchSlot_idle {W : Type} (env : cb_env W) (i : Fin TICKER_MAX_TASKS)
    (st : dispatch_t W) (h : ¬ ((st.t.tasks i).func ≠ 0 ∧ st.t.now ≥ (st.t.tasks i).exp)) :
    dispatchSlot env i st = st := by
  rw [dispatchSlot_eq, if_neg h]

theorem dispatchSlot_due {W : Type} (env : cb_env W) (i : Fin TICKER_MAX_TASKS)
    (hn : keepsNow env) (hs : keepsSlot env i) (st : dispatch_t W)
    (h : (st.t.tasks i).func ≠ 0 ∧ st.t.now ≥ (st.t.tasks i).exp) :
    (dispatchSlot env i st).t.tasks i =
        afterCall (st.t.tasks i) st.t.now
          (env (st.t.tasks i).func st.t (st.t.tasks i).arg st.w).1 ∧
      slotCalls i (dispatchSlot env i st).calls =
        slotCalls i st.calls ++
          [⟨i, (st.t.tasks i).func, (st.t.tasks i).arg,
            (env (st.t.tasks i).func st.t (st.t.tasks i).arg st.w).1⟩] := by
  rw [dispatchSlot_eq, if_pos h]
  simp [hs _ _ _ _, hn _ _ _ _, slotCalls, List.filter_append]

theorem foldl_dispatch_now {W : Type} (env : cb_env W) (hn : keepsNow env)
    (l : List (Fin TICKER_MAX_TASKS)) (st : dispatch_t W) :
    (l.foldl (fun s i => dispatchSlot env i s) st).t.now = st.t.now := by
  induction l generalizing st with
  | nil => rfl
  | cons a l ih => rw [List.foldl_cons, ih, dispatchSlot_now env hn]

theorem foldl_dispatch_ticks {W : Type} (env : cb_env W) (hk : keepsTicks env)
    (l : List (Fin TICKER_MAX_TASKS)) (st : dispatch_t W) (r : rate_t) :
    tickOf r (l.foldl (fun s i => dispatchSlot env i s) st).t = tickOf r st.t := by
  induction l generalizing st with
  | nil => rfl
  | cons a l ih => rw [List.foldl_cons, ih, dispatchSlot_ticks env hk]

theorem foldl_dispatch_other {W : Type} (env : cb_env W) (i : Fin TICKER_MAX_TASKS)
    (hs : keepsSlot env i) (l : List (Fin TICKER_MAX_TASKS)) (hi : i ∉ l)
    (st : dispatch_t W) :
    (l.foldl (fun s j => dispatchSlot env j s) st).t.tasks i = st.t.tasks i ∧
      slotCalls i (l.foldl (fun s j => dispatchSlot env j s) st).calls =
        slotCalls i st.calls := by
  induction l generalizing st with
  | nil => exact ⟨rfl, rfl⟩
  | cons a l ih =>
    have hne : i ≠ a := fun e => hi (e ▸ List.mem_cons_self _ _)
    have hl : i ∉ l := fun h => hi (List.mem_cons_of_mem a h)
    obtain ⟨h1, h2⟩ := ih hl (dispatchSlot env a st)
    obtain ⟨h3, h4⟩ := dispatchSlot_other env i a hne hs st
    rw [List.foldl_cons, h1, h2, h3, h4]
    exact ⟨rfl, rfl⟩

theorem nodup_split {α : Type} (l : List α) (a : α) (ha : a ∈ l) (hnd : l.Nodup) :
    ∃ l1 l2, l = l1 ++ a :: l2 ∧ a ∉ l1 ∧ a ∉ l2 := by
  obtain ⟨l1, l2, rfl⟩ := List.append_of_mem ha
  refine ⟨l1, l2, rfl, ?_, ?_⟩
  · intro h
    have := (List.nodup_append.mp hnd).2.2
    exact this h (List.mem_cons_self a l2)
  · exact (List.nodup_cons.mp (List.nodup_append.mp hnd).2.1).1

/-- What the dispatch loop does to slot `i` when callbacks leave `now` and slot `i` alone:
an idle slot is untouched, a due slot is dispatched exactly once. -/
theorem dispatchLoop_slot {W : Type} (env : cb_env W) (i : Fin TICKER_MAX_TASKS)
    (hn : keepsNow env) (hs : keepsSlot env i) (st : dispatch_t W) :
    (¬ ((st.t.tasks i).func ≠ 0 ∧ st.t.now ≥ (st.t.tasks i).exp) →
        (dispatchLoop env st).t.tasks i = st.t.tasks i ∧
          slotCalls i (dispatchLoop env st).calls = slotCalls i st.calls) ∧
      (((st.t.tasks i).func ≠ 0 ∧ st.t.now ≥ (st.t.tasks i).exp) →
        ∃ (t1 : ticker_t) (w1 : W),
          (dispatchLoop env st).t.tasks i =
              afterCall (st.t.tasks i) st.t.now
                (env (st.t.tasks i).func t1 (st.t.tasks i).arg w1).1 ∧
            slotCalls i (dispatchLoop env st).calls =
              slotCalls i st.calls ++
                [⟨i, (st.t.tasks i).func, (st.t.tasks i).arg,
                  (env (st.t.tasks i).func t1 (st.t.tasks i).arg w1).1⟩]) := by
  obtain ⟨l1, l2, hl, h1, h2⟩ :=
    nodup_split (List.finRange TICKER_MAX_TASKS) i (List.mem_finRange i)
      (List.nodup_finRange _)
  have hloop : dispatchLoop env st =
      l2.foldl (fun s j => dispatchSlot env j s)
        (dispatchSlot env i (l1.foldl (fun s j => dispatchSlot env j s) st)) := by
    unfold dispatchLoop
    rw [hl, List.foldl_append, List.foldl_cons]
  obtain ⟨a1, a2⟩ := foldl_dispatch_other env i hs l1 h1 st
  have a3 := foldl_dispatch_now env hn l1 st
  obtain ⟨b1, b2⟩ := foldl_dispatch_other env i hs l2 h2
    (dispatchSlot env i (l1.foldl (fun s j => dispatchSlot env j s) st))
  rw [hloop, b1, b2]
  constructor
  · intro hidle
    rw [dispatchSlot_idle env i _ (by rw [a1, a3]; exact hidle)]
    exact ⟨a1, a2⟩
  · intro hdue
    obtain ⟨c1, c2⟩ := dispatchSlot_due env i hn hs
      (l1.foldl (fun s j => dispatchSlot env j s) st) (by rw [a1, a3]; exact hdue)
    rw [a1, a3] at c1
    rw [a1, a2] at c2
    exact ⟨_, _, c1, c2⟩

theorem tickerTick_now {W : Type} (env : cb_env W) (hn : keepsNow env) (n : Nat)
    (t : ticker_t) (w : W) : (tickerTick env n t w).t.now = n := by
  simp only [tickerTick, rateFlags_now, dispatchLoop, foldl_dispatch_now env hn]

/-- Slot `i` across one `tickerTick` at reading `n`, callbacks leaving `now` and slot `i`
alone. -/
theorem tickerTick_slot {W : Type} (env : cb_env W) (i : Fin TICKER_MAX_TASKS)
    (hn : keepsNow env) (hs : keepsSlot env i) (n : Nat) (t : ticker_t) (w : W) :
    (¬ ((t.tasks i).func ≠ 0 ∧ n ≥ (t.tasks i).exp) →
        (tickerTick env n t w).t.tasks i = t.tasks i ∧
          slotCalls i (tickerTick env n t w).calls = []) ∧
      (((t.tasks i).func ≠ 0 ∧ n ≥ (t.tasks i).exp) →
        ∃ (t1 : ticker_t) (w1 : W),
          (tickerTick env n t w).t.tasks i =
              afterCall (t.tasks i) n (env (t.tasks i).func t1 (t.tasks i).arg w1).1 ∧
            slotCalls i (tickerTick env n t w).calls =
              [⟨i, (t.tasks i).func, (t.tasks i).arg,
                (env (t.tasks i).func t1 (t.tasks i).arg w1).1⟩]) := by
  have h := dispatchLoop_slot env i hn hs { t := { t with now := n }, w := w, calls := [] }
  simp only [tickerTick, rateFlags_tasks]
  exact h

/-! ## Re-arming and freeing of a dispatched slot -/

theorem afterCall_repeat (s : ticker_task_t) (now : Nat)
    (hper : (s.flags &&& TASK_FLAG_PERIODIC) ≠ 0) :
    afterCall s now TASK_REPEAT = { s with exp := (now + s.interval) % 4294967296 } := by
  unfold afterCall
  rw [if_pos ⟨hper, rfl⟩]

theorem afterCall_oneShot (s : ticker_task_t) (now : Nat) (res : task_return_t)
    (hone : (s.flags &&& TASK_FLAG_PERIODIC) = 0) :
    afterCall s now res = { s with func := 0 } := by
  unfold afterCall
  rw [if_neg (fun h => h.1 hone)]

theorem afterCall_not_repeat (s : ticker_task_t) (now : Nat) (res : task_return_t)
    (hres : res ≠ TASK_REPEAT) :
    afterCall s now res = { s with func := 0 } := by
  unfold afterCall
  rw [if_neg (fun h => hres h.2.symm)]

theorem afterCall_asDone (s : ticker_task_t) (now : Nat) (res : task_return_t) :
    afterCall s now (asDone res) = afterCall s now res := by
  cases res <;> simp [afterCall, asDone]

/-- Claim C4.  Let slot `i` be OCCUPIED with `TASK_FLAG_PERIODIC` set and its expiry
reached by the reading `n` of this `tickerTick` call (the test `now >= exp` of line 135),
and let its callback return `TASK_REPEAT`.  Callbacks are taken to leave `now` and slot `i`
as they find them.  Then after the call `now = n`, the slot is still OCCUPIED, its `exp`
is `(n + interval) mod 2^32`, and `func`, `arg`, `interval`, `flags` and `id` are
unchanged. -/
theorem tickerTick_periodic_repeat {W : Type} (env : cb_env W) (i : Fin TICKER_MAX_TASKS)
    (n : Nat) (t : ticker_t) (w : W) (hn : keepsNow env) (hs : keepsSlot env i)
    (hocc : (t.tasks i).func ≠ 0)
    (hper : ((t.tasks i).flags &&& TASK_FLAG_PERIODIC) ≠ 0)
    (hdue : n ≥ (t.tasks i).exp)
    (hrep : ∀ t1 w1, (env (t.tasks i).func t1 (t.tasks i).arg w1).1 = TASK_REPEAT) :
    (tickerTick env n t w).t.now = n ∧
      ((tickerTick env n t w).t.tasks i).func ≠ 0 ∧
      (tickerTick env n t w).t.tasks i =
        { t.tasks i with exp := (n + (t.tasks i).interval) % 4294967296 } := by
  obtain ⟨t1, w1, h1, _⟩ := (tickerTick_slot env i hn hs n t w).2 ⟨hocc, hdue⟩
  rw [hrep t1 w1, afterCall_repeat _ _ hper] at h1
  refine ⟨tickerTick_now env hn n t w, ?_, h1⟩
  rw [h1]; exact hocc

theorem tickerTick_periodic_repeat_witness :
    (keepsNow envRepeat ∧ keepsSlot envRepeat 0 ∧ (periodicTicker.tasks 0).func ≠ 0 ∧
      ((periodicTicker.tasks 0).flags &&& TASK_FLAG_PERIODIC) ≠ 0 ∧
      1040 ≥ (periodicTicker.tasks 0).exp ∧
      (∀ t1 w1, (envRepeat (periodicTicker.tasks 0).func t1 (periodicTicker.tasks 0).arg w1).1
        = TASK_REPEAT)) ∧
    ((tickerTick envRepeat 1040 periodicTicker ()).t.now = 1040 ∧
      ((tickerTick envRepeat 1040 periodicTicker ()).t.tasks 0).func ≠ 0 ∧
      (tickerTick envRepeat 1040 periodicTicker ()).t.tasks 0 =
        { periodicTicker.tasks 0 with
          exp := (1040 + (periodicTicker.tasks 0).interval) % 4294967296 }) :=
  ⟨⟨fun _ _ _ _ => rfl, fun _ _ _ _ => rfl, by decide, by decide, by decide,
      fun _ _ => rfl⟩,
    tickerTick_periodic_repeat envRepeat 0 1040 periodicTicker ()
      (fun _ _ _ _ => rfl) (fun _ _ _ _ => rfl) (by decide) (by decide) (by decide)
      (fun _ _ => rfl)⟩

/-- While slot `i` is not due it stays as it is and is never called. -/
theorem idle_run {W : Type} (env : cb_env W) (i : Fin TICKER_MAX_TASKS)
    (hn : keepsNow env) (hs : keepsSlot env i) (s : ticker_task_t) (ns : List Nat) :
    ∀ (t : ticker_t) (w : W), t.tasks i = s →
      (∀ m ∈ ns, ¬ (s.func ≠ 0 ∧ m ≥ s.exp)) →
      (tickerRun env ns t w).map (fun r => slotCalls i r.calls) =
          List.replicate ns.length [] ∧
        ∀ r ∈ tickerRun env ns t w, r.t.tasks i = s := by
  induction ns with
  | nil => intro t w _ _; exact ⟨rfl, fun r hr => by cases hr⟩
  | cons m ns ih =>
    intro t w ht hidle
    have hm : ¬ ((t.tasks i).func ≠ 0 ∧ m ≥ (t.tasks i).exp) := by
      rw [ht]; exact hidle m (List.mem_cons_self m ns)
    obtain ⟨h1, h2⟩ := (tickerTick_slot env i hn hs m t w).1 hm
    obtain ⟨h3, h4⟩ := ih (tickerTick env m t w).t (tickerTick env m t w).w (h1.trans ht)
      (fun k hk => hidle k (List.mem_cons_of_mem m hk))
    refine ⟨?_, ?_⟩
    · simp only [tickerRun, List.map_cons, h2, h3, List.length_cons, List.replicate_succ]
    · intro r hr
      simp only [tickerRun, List.mem_cons] at hr
      rcases hr with rfl | hr
      · exact h1.trans ht
      · exact h4 r hr

theorem oneShot_run {W : Type} (env : cb_env W) (i : Fin TICKER_MAX_TASKS)
    (hn : keepsNow env) (hs : keepsSlot env i) (s : ticker_task_t) (n : Nat)
    (post : List Nat) (hocc : s.func ≠ 0) (hone : (s.flags &&& TASK_FLAG_PERIODIC) = 0)
    (hrep : ∀ t1 w1, (env s.func t1 s.arg w1).1 = TASK_REPEAT) (hdue : n ≥ s.exp)
    (pre : List Nat) :
    ∀ (t : ticker_t) (w : W), t.tasks i = s → (∀ m ∈ pre, m < s.exp) →
      (tickerRun env (pre ++ n :: post) t w).map (fun r => slotCalls i r.calls) =
          List.replicate pre.length [] ++
            [⟨i, s.func, s.arg, TASK_REPEAT⟩] :: List.replicate post.length [] ∧
        ∀ r ∈ (tickerRun env (pre ++ n :: post) t w).drop pre.length,
          (r.t.tasks i).func = 0 := by
  induction pre with
  | nil =>
    intro t w ht _
    have hd : (t.tasks i).func ≠ 0 ∧ n ≥ (t.tasks i).exp := by rw [ht]; exact ⟨hocc, hdue⟩
    obtain ⟨t1, w1, h1, h2⟩ := (tickerTick_slot env i hn hs n t w).2 hd
    rw [ht] at h1 h2
    rw [hrep t1 w1] at h2
    rw [afterCall_oneShot _ _ _ hone] at h1
    obtain ⟨h3, h4⟩ := idle_run env i hn hs { s with func := 0 } post
      (tickerTick env n t w).t (tickerTick env n t w).w h1 (fun m _ h => h.1 rfl)
    refine ⟨?_, ?_⟩
    · simp only [List.nil_append, tickerRun, List.map_cons, h2, h3, List.length_nil,
        List.replicate_zero]
    · intro r hr
      simp only [List.nil_append, tickerRun, List.length_nil, List.drop_zero,
        List.mem_cons] at hr
      rcases hr with rfl | hr
      · rw [h1]
      · rw [h4 r hr]
  | cons m pre ih =>
    intro t w ht hpre
    have hm : ¬ ((t.tasks i).func ≠ 0 ∧ m ≥ (t.tasks i).exp) := by
      rw [ht]; intro h
      exact absurd (hpre m (List.mem_cons_self m pre)) (not_lt_of_ge h.2)
    obtain ⟨h1, h2⟩ := (tickerTick_slot env i hn hs m t w).1 hm
    obtain ⟨h3, h4⟩ := ih (tickerTick env m t w).t (tickerTick env m t w).w (h1.trans ht)
      (fun k hk => hpre k (List.mem_cons_of_mem m hk))
    have e : tickerRun env ((m :: pre) ++ n :: post) t w =
        tickerTick env m t w ::
          tickerRun env (pre ++ n :: post) (tickerTick env m t w).t (tickerTick env m t w).w :=
      rfl
    rw [e]
    refine ⟨?_, ?_⟩
    · simp only [List.map_cons, h2, h3, List.length_cons, List.replicate_succ,
        List.cons_append]
    · intro r hr
      simp only [List.length_cons, List.drop_succ_cons] at hr
      exact h4 r hr

/-- Claim C5.  Let slot `i` hold a task without `TASK_FLAG_PERIODIC` whose callback always
returns `TASK_REPEAT`, callbacks leaving `now` and slot `i` as they find them.  Over the
tick calls at the readings `pre ++ n :: post`, where `n` is the first reading at which the
task is due (`now >= exp`), the callback of slot `i` is invoked in no call of `pre`, exactly
once in the call at `n` (returning `TASK_REPEAT`), and in no call of `post`; and slot `i`
is FREE after the call at `n` and after every later call. -/
theorem tickerRun_oneShot_once {W : Type} (env : cb_env W) (i : Fin TICKER_MAX_TASKS)
    (t : ticker_t) (w : W) (pre : List Nat) (n : Nat) (post : List Nat)
    (hn : keepsNow env) (hs : keepsSlot env i)
    (hocc : (t.tasks i).func ≠ 0)
    (hone : ((t.tasks i).flags &&& TASK_FLAG_PERIODIC) = 0)
    (hrep : ∀ t1 w1, (env (t.tasks i).func t1 (t.tasks i).arg w1).1 = TASK_REPEAT)
    (hpre : ∀ m ∈ pre, m < (t.tasks i).exp) (hdue : n ≥ (t.tasks i).exp) :
    (tickerRun env (pre ++ n :: post) t w).map (fun r => slotCalls i r.calls) =
        List.replicate pre.length [] ++
          [⟨i, (t.tasks i).func, (t.tasks i).arg, TASK_REPEAT⟩] ::
            List.replicate post.length [] ∧
      ∀ r ∈ (tickerRun env (pre ++ n :: post) t w).drop pre.length,
        (r.t.tasks i).func = 0 :=
  oneShot_run env i hn hs (t.tasks i) n post hocc hone hrep hdue pre t w rfl hpre

theorem tickerRun_oneShot_once_witness :
    (keepsNow envRepeat ∧ keepsSlot envRepeat 0 ∧ (oneShotTicker.tasks 0).func ≠ 0 ∧
      ((oneShotTicker.tasks 0).flags &&& TASK_FLAG_PERIODIC) = 0 ∧
      (∀ t1 w1, (envRepeat (oneShotTicker.tasks 0).func t1 (oneShotTicker.tasks 0).arg w1).1
        = TASK_REPEAT) ∧
      (∀ m ∈ [1010, 1040], m < (oneShotTicker.tasks 0).exp) ∧
      1060 ≥ (oneShotTicker.tasks 0).exp) ∧
    ((tickerRun envRepeat ([1010, 1040] ++ 1060 :: [1090, 1120]) oneShotTicker ()).map
          (fun r => slotCalls 0 r.calls) =
        List.replicate [1010, 1040].length [] ++
          [⟨0, (oneShotTicker.tasks 0).func, (oneShotTicker.tasks 0).arg, TASK_REPEAT⟩] ::
            List.replicate [1090, 1120].length [] ∧
      ∀ r ∈ (tickerRun envRepeat ([1010, 1040] ++ 1060 :: [1090, 1120]) oneShotTicker ()).drop
          [1010, 1040].length,
        (r.t.tasks 0).func = 0) :=
  ⟨⟨fun _ _ _ _ => rfl, fun _ _ _ _ => rfl, by decide, by decide, fun _ _ => rfl,
      by decide, by decide⟩,
    tickerRun_oneShot_once envRepeat 0 oneShotTicker () [1010, 1040] 1060 [1090, 1120]
      (fun _ _ _ _ => rfl) (fun _ _ _ _ => rfl) (by decide) (by decide) (fun _ _ => rfl)
      (by decide) (by decide)⟩

theorem dispatchSlot_errAsDone {W : Type} (env : cb_env W) (j : Fin TICKER_MAX_TASKS)
    (a b : dispatch_t W) (ht : a.t = b.t) (hw : a.w = b.w)
    (hc : a.calls.map (fun c => c.slot) = b.calls.map (fun c => c.slot)) :
    (dispatchSlot (errAsDone env) j a).t = (dispatchSlot env j b).t ∧
      (dispatchSlot (errAsDone env) j a).w = (dispatchSlot env j b).w ∧
      (dispatchSlot (errAsDone env) j a).calls.map (fun c => c.slot) =
        (dispatchSlot env j b).calls.map (fun c => c.slot) := by
  rw [dispatchSlot_eq, dispatchSlot_eq, ht, hw]
  split_ifs
  · simp only [errAsDone, afterCall_asDone, List.map_append, hc, List.map_cons, List.map_nil,
      and_self]
  · exact ⟨ht, hw, hc⟩

theorem foldl_dispatch_errAsDone {W : Type} (env : cb_env W)
    (l : List (Fin TICKER_MAX_TASKS)) :
    ∀ (a b : dispatch_t W), a.t = b.t → a.w = b.w →
      a.calls.map (fun c => c.slot) = b.calls.map (fun c => c.slot) →
      (l.foldl (fun s j => dispatchSlot (errAsDone env) j s) a).t =
          (l.foldl (fun s j => dispatchSlot env j s) b).t ∧
        (l.foldl (fun s j => dispatchSlot (errAsDone env) j s) a).w =
          (l.foldl (fun s j => dispatchSlot env j s) b).w ∧
        (l.foldl (fun s j => dispatchSlot (errAsDone env) j s) a).calls.map
            (fun c => c.slot) =
          (l.foldl (fun s j => dispatchSlot env j s) b).calls.map (fun c => c.slot) := by
  induction l with
  | nil => intro a b ht hw hc; exact ⟨ht, hw, hc⟩
  | cons j l ih =>
    intro a b ht hw hc
    obtain ⟨h1, h2, h3⟩ := dispatchSlot_errAsDone env j a b ht hw hc
    exact ih _ _ h1 h2 h3

theorem tickerTick_errAsDone {W : Type} (env : cb_env W) (n : Nat) (t : ticker_t) (w : W) :
    (tickerTick (errAsDone env) n t w).t = (tickerTick env n t w).t ∧
      (tickerTick (errAsDone env) n t w).w = (tickerTick env n t w).w ∧
      (tickerTick (errAsDone env) n t w).calls.map (fun c => c.slot) =
        (tickerTick env n t w).calls.map (fun c => c.slot) := by
  obtain ⟨h1, h2, h3⟩ := foldl_dispatch_errAsDone env (List.finRange TICKER_MAX_TASKS)
    { t := { t with now := n }, w := w, calls := [] }
    { t := { t with now := n }, w := w, calls := [] } rfl rfl rfl
  simp only [tickerTick, dispatchLoop]
  exact ⟨by rw [h1], h2, h3⟩

/-- Claim C6.  Let slot `i` be OCCUPIED and due, with a callback that returns `TASK_ERROR`,
callbacks leaving `now` and slot `i` as they find them.  Compare this `tickerTick` with
the one in which the callbacks return `TASK_DONE` wherever they returned `TASK_ERROR`
(`errAsDone`): both end in the same scheduler and callback state and invoke the same slots,
and in both slot `i` was invoked once and is FREE afterwards.  The slot may be PERIODIC or
ONE_SHOT: no assumption is made on its flags. -/
theorem tickerTick_error_as_done {W : Type} (env : cb_env W) (i : Fin TICKER_MAX_TASKS)
    (n : Nat) (t : ticker_t) (w : W) (hn : keepsNow env) (hs : keepsSlot env i)
    (hocc : (t.tasks i).func ≠ 0) (hdue : n ≥ (t.tasks i).exp)
    (herr : ∀ t1 w1, (env (t.tasks i).func t1 (t.tasks i).arg w1).1 = TASK_ERROR) :
    (tickerTick (errAsDone env) n t w).t = (tickerTick env n t w).t ∧
      (tickerTick (errAsDone env) n t w).w = (tickerTick env n t w).w ∧
      (tickerTick (errAsDone env) n t w).calls.map (fun c => c.slot) =
        (tickerTick env n t w).calls.map (fun c => c.slot) ∧
      (∀ t1 w1, (errAsDone env (t.tasks i).func t1 (t.tasks i).arg w1).1 = TASK_DONE) ∧
      slotCalls i (tickerTick env n t w).calls =
        [⟨i, (t.tasks i).func, (t.tasks i).arg, TASK_ERROR⟩] ∧
      slotCalls i (tickerTick (errAsDone env) n t w).calls =
        [⟨i, (t.tasks i).func, (t.tasks i).arg, TASK_DONE⟩] ∧
      ((tickerTick env n t w).t.tasks i).func = 0 ∧
      ((tickerTick (errAsDone env) n t w).t.tasks i).func = 0 := by
  obtain ⟨h1, h2, h3⟩ := tickerTick_errAsDone env n t w
  obtain ⟨t1, w1, h4, h5⟩ := (tickerTick_slot env i hn hs n t w).2 ⟨hocc, hdue⟩
  have hn2 : keepsNow (errAsDone env) := fun f t a w => hn f t a w
  have hs2 : keepsSlot (errAsDone env) i := fun f t a w => hs f t a w
  obtain ⟨t2, w2, _, h7⟩ := (tickerTick_slot (errAsDone env) i hn2 hs2 n t w).2 ⟨hocc, hdue⟩
  have hd : ∀ t1 w1, (errAsDone env (t.tasks i).func t1 (t.tasks i).arg w1).1 = TASK_DONE :=
    fun t1 w1 => by simp only [errAsDone, herr t1 w1, asDone]
  rw [herr t1 w1] at h4 h5
  rw [hd t2 w2] at h7
  rw [afterCall_not_repeat _ _ _ (by decide)] at h4
  refine ⟨h1, h2, h3, hd, h5, h7, ?_, ?_⟩
  · rw [h4]
  · rw [h1, h4]

theorem tickerTick_error_as_done_witness :
    (keepsNow envError ∧ keepsSlot envError 0 ∧ (periodicTicker.tasks 0).func ≠ 0 ∧
      1040 ≥ (periodicTicker.tasks 0).exp ∧
      (∀ t1 w1, (envError (periodicTicker.tasks 0).func t1 (periodicTicker.tasks 0).arg w1).1
        = TASK_ERROR)) ∧
    ((tickerTick (errAsDone envError) 1040 periodicTicker ()).t =
        (tickerTick envError 1040 periodicTicker ()).t ∧
      (tickerTick (errAsDone envError) 1040 periodicTicker ()).w =
        (tickerTick envError 1040 periodicTicker ()).w ∧
      (tickerTick (errAsDone envError) 1040 periodicTicker ()).calls.map (fun c => c.slot) =
        (tickerTick envError 1040 periodicTicker ()).calls.map (fun c => c.slot) ∧
      (∀ t1 w1,
        (errAsDone envError (periodicTicker.tasks 0).func t1 (periodicTicker.tasks 0).arg w1).1
          = TASK_DONE) ∧
      slotCalls 0 (tickerTick envError 1040 periodicTicker ()).calls =
        [⟨0, (periodicTicker.tasks 0).func, (periodicTicker.tasks 0).arg, TASK_ERROR⟩] ∧
      slotCalls 0 (tickerTick (errAsDone envError) 1040 periodicTicker ()).calls =
        [⟨0, (periodicTicker.tasks 0).func, (periodicTicker.tasks 0).arg, TASK_DONE⟩] ∧
      ((tickerTick envError 1040 periodicTicker ()).t.tasks 0).func = 0 ∧
      ((tickerTick (errAsDone envError) 1040 periodicTicker ()).t.tasks 0).func = 0) :=
  ⟨⟨fun _ _ _ _ => rfl, fun _ _ _ _ => rfl, by decide, by decide, fun _ _ => rfl⟩,
    tickerTick_error_as_done envError 0 1040 periodicTicker ()
      (fun _ _ _ _ => rfl) (fun _ _ _ _ => rfl) (by decide) (by decide) (fun _ _ => rfl)⟩

/-! ## The expiry test near the 32-bit boundary -/

/-- Claim C7, the code at two inputs near the 32-bit boundary.  A task scheduled at stored
time `0xFFFFFFFE` with interval 10 gets the wrapped expiry 8, and the tick call at
`0xFFFFFFFF` (1 tick after scheduling, 1 < 10) already invokes it.  A task scheduled at
`0xFFFFFFF0` with interval 14 gets expiry `0xFFFFFFFE`, and the tick call at reading 2
(18 ticks after scheduling, 18 >= 14) does not invoke it.  Line 135 compares `now >= exp`
directly and not through `DIFFU32`. -/
theorem tickerTick_expiry_not_wraparound_safe :
    ((tickerScheduleTaskMs (idleTicker 4294967294) 10 1 0 TASK_FLAG_NONE).2.tasks 0).exp = 8 ∧
      (tickerTick envRepeat 4294967295
          (tickerScheduleTaskMs (idleTicker 4294967294) 10 1 0 TASK_FLAG_NONE).2 ()).calls =
        [⟨0, 1, 0, TASK_REPEAT⟩] ∧
      ((tickerScheduleTaskMs (idleTicker 4294967280) 14 1 0 TASK_FLAG_NONE).2.tasks 0).exp =
        4294967294 ∧
      (tickerTick envRepeat 2
          (tickerScheduleTaskMs (idleTicker 4294967280) 14 1 0 TASK_FLAG_NONE).2 ()).calls =
        [] := by
  refine ⟨by decide, by decide, by decide, by decide⟩

/-! ## Rate flags after `tickerTick` and `tickerInit` -/

theorem rate_after_tick {W : Type} (env : cb_env W) (n : Nat) (t : ticker_t) (w : W)
    (r : rate_t) (hn : keepsNow env) (hk : keepsTicks env) :
    HzOf r (tickerTick env n t w).t = decide (period r ≤ DIFFU32 n (tickOf r t)) ∧
      tickOf r (tickerTick env n t w).t =
        if period r ≤ DIFFU32 n (tickOf r t) then (tickOf r t + period r) % 4294967296
        else tickOf r t := by
  have h1 : (dispatchLoop env { t := { t with now := n }, w := w, calls := [] }).t.now = n := by
    unfold dispatchLoop
    rw [foldl_dispatch_now env hn]
  have h2 : tickOf r (dispatchLoop env { t := { t with now := n }, w := w, calls := [] }).t =
      tickOf r t := by
    unfold dispatchLoop
    rw [foldl_dispatch_ticks env hk]
    cases r <;> rfl
  simp only [tickerTick, rateFlags_Hz, rateFlags_tick, h1, h2, and_self]

theorem DIFFU32_le_iff (p x y : Nat) :
    p ≤ DIFFU32 x y ↔ (p : Int) ≤ ((x : Int) - (y : Int)) % 4294967296 := by
  unfold DIFFU32; omega

/-- Claim C8.  For every scheduler state, reading `n` and rate `R` with period
`p = 1000 / R`, after `tickerTick` (callbacks leaving `now` and the ten last-fire counters
as they find them): the flag of `R` is 1 iff `((n - lastFire_old) mod 2^32) >= p`, whatever
the flag was before, and the last-fire counter is `(lastFire_old + p) mod 2^32` when the
flag is 1 and unchanged otherwise. -/
theorem tickerTick_rate_flags {W : Type} (env : cb_env W) (n : Nat) (t : ticker_t) (w : W)
    (r : rate_t) (hn : keepsNow env) (hk : keepsTicks env) :
    period r = 1000 / rateHz r ∧
      (HzOf r (tickerTick env n t w).t = true ↔
        (period r : Int) ≤ ((n : Int) - (tickOf r t : Int)) % 4294967296) ∧
      tickOf r (tickerTick env n t w).t =
        (if HzOf r (tickerTick env n t w).t = true then (tickOf r t + period r) % 4294967296
         else tickOf r t) := by
  obtain ⟨h1, h2⟩ := rate_after_tick env n t w r hn hk
  refine ⟨by cases r <;> rfl, ?_, ?_⟩
  · rw [h1, decide_eq_true_iff, DIFFU32_le_iff]
  · rw [h2, h1]
    simp only [decide_eq_true_iff]

theorem tickerTick_rate_flags_witness :
    (keepsNow envRepeat ∧ keepsTicks envRepeat) ∧
    (period rate_t.Hz5 = 1000 / rateHz rate_t.Hz5 ∧
      (HzOf rate_t.Hz5 (tickerTick envRepeat 2 (idleTicker 4294967294) ()).t = true ↔
        (period rate_t.Hz5 : Int) ≤
          ((2 : Nat) - (tickOf rate_t.Hz5 (idleTicker 4294967294) : Int)) % 4294967296) ∧
      tickOf rate_t.Hz5 (tickerTick envRepeat 2 (idleTicker 4294967294) ()).t =
        (if HzOf rate_t.Hz5 (tickerTick envRepeat 2 (idleTicker 4294967294) ()).t = true then
          (tickOf rate_t.Hz5 (idleTicker 4294967294) + period rate_t.Hz5) % 4294967296
         else tickOf rate_t.Hz5 (idleTicker 4294967294))) :=
  ⟨⟨fun _ _ _ _ => rfl, fun _ _ _ _ _ => rfl⟩,
    tickerTick_rate_flags envRepeat 2 (idleTicker 4294967294) () rate_t.Hz5
      (fun _ _ _ _ => rfl) (fun _ _ _ _ _ => rfl)⟩

theorem tickOf_tickerInit (r : rate_t) (c : Nat) (t : ticker_t) :
    tickOf r (tickerInit c t) = c := by
  cases r <;> rfl

/-- Claim C9.  `tickerInit` at reading `c` sets `now` and all ten last-fire counters to
`c`, whatever the state before.  The first `tickerTick` after it, at reading `c'`, raises
the flag of a rate iff `((c' - c) mod 2^32) >= period`, and raises no flag at all when
`c' = c`.  Callbacks of tasks already in the table are taken to leave `now` and the
last-fire counters as they find them. -/
theorem tickerInit_no_burst {W : Type} (env : cb_env W) (c c' : Nat) (t : ticker_t) (w : W)
    (hn : keepsNow env) (hk : keepsTicks env) :
    (tickerInit c t).now = c ∧
      (∀ r, tickOf r (tickerInit c t) = c) ∧
      (∀ r, HzOf r (tickerTick env c' (tickerInit c t) w).t = true ↔
        (period r : Int) ≤ ((c' : Int) - (c : Int)) % 4294967296) ∧
      (∀ r, HzOf r (tickerTick env c (tickerInit c t) w).t = false) := by
  refine ⟨rfl, fun r => tickOf_tickerInit r c t, fun r => ?_, fun r => ?_⟩
  · rw [(rate_after_tick env c' (tickerInit c t) w r hn hk).1, decide_eq_true_iff,
      DIFFU32_le_iff, tickOf_tickerInit]
  · rw [(rate_after_tick env c (tickerInit c t) w r hn hk).1, decide_eq_false_iff_not,
      DIFFU32_le_iff, tickOf_tickerInit]
    have hp : 0 < period r := by cases r <;> decide
    omega

theorem tickerInit_no_burst_witness :
    (keepsNow envRepeat ∧ keepsTicks envRepeat) ∧
    ((tickerInit 1000 periodicTicker).now = 1000 ∧
      (∀ r, tickOf r (tickerInit 1000 periodicTicker) = 1000) ∧
      (∀ r, HzOf r (tickerTick envRepeat 1010 (tickerInit 1000 periodicTicker) ()).t = true ↔
        (period r : Int) ≤ ((1010 : Nat) - ((1000 : Nat) : Int)) % 4294967296) ∧
      (∀ r, HzOf r (tickerTick envRepeat 1000 (tickerInit 1000 periodicTicker) ()).t = false)) :=
  ⟨⟨fun _ _ _ _ => rfl, fun _ _ _ _ _ => rfl⟩,
    tickerInit_no_burst envRepeat 1000 1010 periodicTicker ()
      (fun _ _ _ _ => rfl) (fun _ _ _ _ _ => rfl)⟩

/-! ## A periodic task over a run of tick calls -/

/-- Claim C10 as stated fails.  A PERIODIC task of interval 10 is scheduled at `now = 0`
with a callback that always returns `TASK_REPEAT`, and `tickerTick` is called every 4
ticks, at 4, 8, ..., 32.  The code invokes it in the calls at 12 and 24 only: after the
call at 12 the expiry is 12 + 10 = 22.  A schedule anchored to `t0 = 0` asks for the second
invocation in the first call at or after 20, the call at 20, and for a third one in the
call at 32. -/
theorem periodic_schedule_not_anchored :
    (tickerRun envRepeat [4, 8, 12, 16, 20, 24, 28, 32]
        (tickerScheduleTaskMs (idleTicker 0) 10 1 0 TASK_FLAG_PERIODIC).2 ()).map
        (fun r => decide (slotCalls 0 r.calls ≠ [])) =
        [false, false, true, false, false, true, false, false] ∧
      anchoredFirings 0 10 1 [4, 8, 12, 16, 20, 24, 28, 32] =
        [false, false, true, false, true, false, false, true] ∧
      (tickerRun envRepeat [4, 8, 12, 16, 20, 24, 28, 32]
        (tickerScheduleTaskMs (idleTicker 0) 10 1 0 TASK_FLAG_PERIODIC).2 ()).map
        (fun r => decide (slotCalls 0 r.calls ≠ [])) ≠
        anchoredFirings 0 10 1 [4, 8, 12, 16, 20, 24, 28, 32] := by
  refine ⟨by decide, by decide, by decide⟩

theorem rearmed_run {W : Type} (env : cb_env W) (i : Fin TICKER_MAX_TASKS)
    (hn : keepsNow env) (hs : keepsSlot env i) (s : ticker_task_t) (hocc : s.func ≠ 0)
    (hper : (s.flags &&& TASK_FLAG_PERIODIC) ≠ 0)
    (hrep : ∀ t1 w1, (env s.func t1 s.arg w1).1 = TASK_REPEAT) (ns : List Nat) :
    ∀ (a : Nat) (t : ticker_t) (w : W), t.tasks i = { s with exp := a + s.interval } →
      (∀ n ∈ ns, n + s.interval < 4294967296) →
      (tickerRun env ns t w).map (fun r => decide (slotCalls i r.calls ≠ [])) =
        rearmedFirings s.interval a ns := by
  induction ns with
  | nil => intro a t w _ _; rfl
  | cons n ns ih =>
    intro a t w ht hb
    have hb2 : ∀ m ∈ ns, m + s.interval < 4294967296 :=
      fun m hm => hb m (List.mem_cons_of_mem n hm)
    by_cases hdue : a + s.interval ≤ n
    · have hd : (t.tasks i).func ≠ 0 ∧ n ≥ (t.tasks i).exp := by rw [ht]; exact ⟨hocc, hdue⟩
      obtain ⟨t1, w1, h1, h2⟩ := (tickerTick_slot env i hn hs n t w).2 hd
      rw [ht] at h1
      have h3 := hrep t1 w1
      simp only at h1 h3
      rw [h3, afterCall_repeat { s with exp := a + s.interval } n hper] at h1
      have h4 : (tickerTick env n t w).t.tasks i = { s with exp := n + s.interval } := by
        rw [h1]
        simp only [Nat.mod_eq_of_lt (hb n (List.mem_cons_self n ns))]
      simp only [tickerRun, List.map_cons, rearmedFirings, if_pos hdue, h2,
        ih n _ _ h4 hb2]
      simp
    · have hd : ¬ ((t.tasks i).func ≠ 0 ∧ n ≥ (t.tasks i).exp) := by
        rw [ht]; exact fun h => hdue h.2
      obtain ⟨h1, h2⟩ := (tickerTick_slot env i hn hs n t w).1 hd
      simp only [tickerRun, List.map_cons, rearmedFirings, if_neg hdue, h2,
        ih a _ _ (h1.trans ht) hb2]
      simp

theorem freed_after_done {W : Type} (env : cb_env W) (i : Fin TICKER_MAX_TASKS)
    (hn : keepsNow env) (hs : keepsSlot env i) (n : Nat) (t : ticker_t) (w : W)
    (post : List Nat)
    (hdone : ∃ c ∈ (tickerTick env n t w).calls, c.slot = i ∧ c.res = TASK_DONE) :
    ((tickerTick env n t w).t.tasks i).func = 0 ∧
      ∀ r ∈ tickerRun env post (tickerTick env n t w).t (tickerTick env n t w).w,
        slotCalls i r.calls = [] := by
  obtain ⟨c, hc, hci, hcr⟩ := hdone
  have hmem : c ∈ slotCalls i (tickerTick env n t w).calls := by
    unfold slotCalls
    exact List.mem_filter.mpr ⟨hc, by simp [hci]⟩
  by_cases hd : (t.tasks i).func ≠ 0 ∧ n ≥ (t.tasks i).exp
  · obtain ⟨t1, w1, h1, h2⟩ := (tickerTick_slot env i hn hs n t w).2 hd
    rw [h2, List.mem_singleton] at hmem
    have hres : (env (t.tasks i).func t1 (t.tasks i).arg w1).1 = TASK_DONE := by
      rw [← hcr, hmem]
    rw [hres, afterCall_not_repeat _ _ _ (by decide)] at h1
    obtain ⟨h3, _⟩ := idle_run env i hn hs { t.tasks i with func := 0 } post
      (tickerTick env n t w).t (tickerTick env n t w).w h1 (fun m _ h => h.1 rfl)
    refine ⟨by rw [h1], fun r hr => ?_⟩
    have : slotCalls i r.calls ∈
        (tickerRun env post (tickerTick env n t w).t (tickerTick env n t w).w).map
          (fun r => slotCalls i r.calls) := List.mem_map_of_mem _ hr
    rw [h3] at this
    exact List.eq_of_mem_replicate this
  · obtain ⟨_, h2⟩ := (tickerTick_slot env i hn hs n t w).1 hd
    rw [h2] at hmem
    cases hmem

/-- Claim C10, amended.  Let slot `i` hold a PERIODIC task of interval `I` scheduled when
`now = t0` (so `exp = t0 + I`), whose callback always returns `TASK_REPEAT`, callbacks
leaving `now` and slot `i` as they find them, over tick calls whose readings `n` keep
`n + I` below `2^32`.  Then the task is invoked exactly in the calls given by
`rearmedFirings`: the first invocation is in the first call at or after `t0 + I`, and each
further one in the first call at or after `a + I`, with `a` the reading of the call that
made the previous invocation.  And whenever a tick call invoked slot `i` and its callback
returned `TASK_DONE`, the slot is FREE after that call and is invoked in no later call. -/
theorem tickerRun_periodic_rearmed {W : Type} (env env2 : cb_env W)
    (i : Fin TICKER_MAX_TASKS) (t0 : Nat) (t : ticker_t) (w : W) (ns : List Nat)
    (n2 : Nat) (t2 : ticker_t) (w2 : W) (post : List Nat)
    (hn : keepsNow env) (hs : keepsSlot env i)
    (hocc : (t.tasks i).func ≠ 0)
    (hper : ((t.tasks i).flags &&& TASK_FLAG_PERIODIC) ≠ 0)
    (hexp : (t.tasks i).exp = t0 + (t.tasks i).interval)
    (hrep : ∀ t1 w1, (env (t.tasks i).func t1 (t.tasks i).arg w1).1 = TASK_REPEAT)
    (hb : ∀ n ∈ ns, n + (t.tasks i).interval < 4294967296)
    (hn2 : keepsNow env2) (hs2 : keepsSlot env2 i)
    (hdone : ∃ c ∈ (tickerTick env2 n2 t2 w2).calls, c.slot = i ∧ c.res = TASK_DONE) :
    (tickerRun env ns t w).map (fun r => decide (slotCalls i r.calls ≠ [])) =
        rearmedFirings (t.tasks i).interval t0 ns ∧
      ((tickerTick env2 n2 t2 w2).t.tasks i).func = 0 ∧
      ∀ r ∈ tickerRun env2 post (tickerTick env2 n2 t2 w2).t (tickerTick env2 n2 t2 w2).w,
        slotCalls i r.calls = [] := by
  refine ⟨?_, freed_after_done env2 i hn2 hs2 n2 t2 w2 post hdone⟩
  exact rearmed_run env i hn hs (t.tasks i) hocc hper hrep ns t0 t w
    (by rw [← hexp]) hb

theorem tickerRun_periodic_rearmed_witness :
    (keepsNow envRepeat ∧ keepsSlot envRepeat 0 ∧ (periodicTicker.tasks 0).func ≠ 0 ∧
      ((periodicTicker.tasks 0).flags &&& TASK_FLAG_PERIODIC) ≠ 0 ∧
      (periodicTicker.tasks 0).exp = 1000 + (periodicTicker.tasks 0).interval ∧
      (∀ t1 w1, (envRepeat (periodicTicker.tasks 0).func t1 (periodicTicker.tasks 0).arg w1).1
        = TASK_REPEAT) ∧
      (∀ n ∈ [1010, 1040, 1060, 1090, 1120],
        n + (periodicTicker.tasks 0).interval < 4294967296) ∧
      keepsNow envDone ∧ keepsSlot envDone 0 ∧
      (∃ c ∈ (tickerTick envDone 1040 periodicTicker ()).calls,
        c.slot = 0 ∧ c.res = TASK_DONE)) ∧
    ((tickerRun envRepeat [1010, 1040, 1060, 1090, 1120] periodicTicker ()).map
          (fun r => decide (slotCalls 0 r.calls ≠ [])) =
        rearmedFirings (periodicTicker.tasks 0).interval 1000
          [1010, 1040, 1060, 1090, 1120] ∧
      ((tickerTick envDone 1040 periodicTicker ()).t.tasks 0).func = 0 ∧
      ∀ r ∈ tickerRun envDone [1060, 1090] (tickerTick envDone 1040 periodicTicker ()).t
          (tickerTick envDone 1040 periodicTicker ()).w,
        slotCalls 0 r.calls = []) :=
  ⟨⟨fun _ _ _ _ => rfl, fun _ _ _ _ => rfl, by decide, by decide, by decide,
      fun _ _ => rfl, by decide, fun _ _ _ _ => rfl, fun _ _ _ _ => rfl,
      ⟨⟨0, 1, 0, TASK_DONE⟩, by decide, rfl, rfl⟩⟩,
    tickerRun_periodic_rearmed envRepeat envDone 0 1000 periodicTicker ()
      [1010, 1040, 1060, 1090, 1120] 1040 periodicTicker () [1060, 1090]
      (fun _ _ _ _ => rfl) (fun _ _ _ _ => rfl) (by decide) (by decide) (by decide)
      (fun _ _ => rfl) (by decide) (fun _ _ _ _ => rfl) (fun _ _ _ _ => rfl)
      ⟨⟨0, 1, 0, TASK_DONE⟩, by decide, rfl, rfl⟩⟩

/-! ## Tasks scheduled from inside a callback, and the end-to-end scenario -/

/-- Claim C11 as stated fails.  Slot 0 holds a due task whose callback schedules a new
task with interval 0; the new task lands in slot 1, above the slot being dispatched, with
expiry equal to `now`, and the same `tickerTick` pass goes on to slot 1 and invokes the new
task's callback: the pass logs two invocations, slot 0 and then slot 1. -/
theorem spawned_task_runs_in_same_pass :
    (tickerTick envSpawn 1010 spawnTicker ()).calls =
      [⟨0, 1, 0, TASK_DONE⟩, ⟨1, 2, 0, TASK_DONE⟩] := by
  decide

theorem dispatchSlot_calls {W : Type} (env : cb_env W) (k : Fin TICKER_MAX_TASKS)
    (st : dispatch_t W) :
    (dispatchSlot env k st).calls = st.calls ∨
      ∃ c : call_t, c.slot = k ∧ (dispatchSlot env k st).calls = st.calls ++ [c] := by
  rw [dispatchSlot_eq]
  split_ifs
  · exact Or.inr ⟨_, rfl, rfl⟩
  · exact Or.inl rfl

theorem foldl_dispatch_sorted {W : Type} (env : cb_env W)
    (l : List (Fin TICKER_MAX_TASKS)) (hl : l.Pairwise (· < ·)) :
    ∀ st : dispatch_t W, st.calls.Pairwise (fun a b => a.slot < b.slot) →
      (∀ c ∈ st.calls, ∀ k ∈ l, c.slot < k) →
      (l.foldl (fun s k => dispatchSlot env k s) st).calls.Pairwise
        (fun a b => a.slot < b.slot) := by
  induction l with
  | nil => intro st h _; exact h
  | cons a l ih =>
    intro st hs hlt
    obtain ⟨ha, hl2⟩ := List.pairwise_cons.mp hl
    rw [List.foldl_cons]
    rcases dispatchSlot_calls env a st with h | ⟨c, hc, h⟩
    · apply ih hl2
      · rw [h]; exact hs
      · rw [h]; exact fun c hc k hk => hlt c hc k (List.mem_cons_of_mem a hk)
    · apply ih hl2
      · rw [h, List.pairwise_append]
        refine ⟨hs, List.pairwise_singleton _ _, fun x hx y hy => ?_⟩
        rw [List.mem_singleton] at hy
        rw [hy, hc]
        exact hlt x hx a (List.mem_cons_self a l)
      · rw [h]
        intro x hx k hk
        rcases List.mem_append.mp hx with hx | hx
        · exact hlt x hx k (List.mem_cons_of_mem a hk)
        · rw [List.mem_singleton] at hx
          rw [hx, hc]
          exact ha k hk

/-- The invocations of one `tickerTick` are logged in strictly increasing slot order. -/
theorem tickerTick_calls_sorted {W : Type} (env : cb_env W) (n : Nat) (t : ticker_t)
    (w : W) : (tickerTick env n t w).calls.Pairwise (fun a b => a.slot < b.slot) := by
  simp only [tickerTick, dispatchLoop]
  exact foldl_dispatch_sorted env _ (List.pairwise_lt_finRange _) _ List.Pairwise.nil
    (fun c hc => by cases hc)

theorem foldl_dispatch_idle {W : Type} (env : cb_env W) (l : List (Fin TICKER_MAX_TASKS))
    (st : dispatch_t W)
    (h : ∀ k ∈ l, ¬ ((st.t.tasks k).func ≠ 0 ∧ st.t.now ≥ (st.t.tasks k).exp)) :
    l.foldl (fun s k => dispatchSlot env k s) st = st := by
  induction l with
  | nil => rfl
  | cons a l ih =>
    rw [List.foldl_cons, dispatchSlot_idle env a st (h a (List.mem_cons_self a l))]
    exact ih (fun k hk => h k (List.mem_cons_of_mem a hk))

theorem foldl_dispatch_calls_other {W : Type} (env : cb_env W) (j : Fin TICKER_MAX_TASKS)
    (l : List (Fin TICKER_MAX_TASKS)) (hj : j ∉ l) :
    ∀ st : dispatch_t W,
      slotCalls j (l.foldl (fun s k => dispatchSlot env k s) st).calls =
        slotCalls j st.calls := by
  induction l with
  | nil => intro st; rfl
  | cons a l ih =>
    intro st
    have hne : a ≠ j := fun e => hj (e ▸ List.mem_cons_self _ _)
    rw [List.foldl_cons, ih (fun h => hj (List.mem_cons_of_mem a h))]
    rcases dispatchSlot_calls env a st with h | ⟨c, hc, h⟩
    · rw [h]
    · rw [h]
      simp [slotCalls, List.filter_append, hc, hne]

/-- When the slots below `j` are OCCUPIED and slot `j` is FREE, the new task lands in
slot `j`. -/
theorem schedule_at (t : ticker_t) (j : Fin TICKER_MAX_TASKS) (val func arg flags : Nat)
    (hfunc : func ≠ 0) (hfree : (t.tasks j).func = 0)
    (hocc : ∀ k, k < j → (t.tasks k).func ≠ 0) :
    tickerScheduleTaskMs t val func arg flags =
      (((j : Nat) : Int),
        { t with
          tasks := Function.update t.tasks j
            { id := ((j : Nat) : Int), flags := flags, arg := arg, func := func,
              exp := (t.now + val) % 4294967296, interval := val } }) := by
  obtain ⟨i, hfr, hlow, hres⟩ := schedule_lowest_free t val func arg flags hfunc ⟨j, hfree⟩
  have hij : i = j := by
    rcases lt_trichotomy i j with h | h | h
    · exact absurd hfr (hocc i h)
    · exact h
    · exact absurd hfree (hlow j h)
  rw [hres, hij]

theorem sorted_split {n : Nat} (l : List (Fin n)) (hl : l.Pairwise (· < ·)) (j : Fin n)
    (hj : j ∈ l) :
    ∃ m1 m2, l = m1 ++ j :: m2 ∧ (∀ k ∈ m1, k < j) ∧ (∀ k ∈ m2, j < k) ∧
      m2.Pairwise (· < ·) := by
  obtain ⟨m1, m2, rfl⟩ := List.append_of_mem hj
  have hp := List.pairwise_append.mp hl
  have hc := List.pairwise_cons.mp hp.2.1
  exact ⟨m1, m2, rfl, fun k hk => hp.2.2 k hk j (List.mem_cons_self j m2), hc.1, hc.2⟩

/-- The slot of the spawning callback after its dispatch step, and what that step leaves
elsewhere. -/
theorem dispatchSlot_spawn {W : Type} (env : cb_env W) (i j : Fin TICKER_MAX_TASKS)
    (n : Nat) (t : ticker_t) (w : W) (val g a2 fl : Nat)
    (hij : i < j) (hg : g ≠ 0) (hocc : (t.tasks i).func ≠ 0) (hdue : n ≥ (t.tasks i).exp)
    (hspawn : ∀ t1 a w1,
      (env (t.tasks i).func t1 a w1).2.1 = (tickerScheduleTaskMs t1 val g a2 fl).2)
    (hfree : (t.tasks j).func = 0)
    (hquiet : ∀ k, k < j → k ≠ i → (t.tasks k).func ≠ 0 ∧ n < (t.tasks k).exp) :
    (dispatchSlot env i { t := { t with now := n }, w := w, calls := [] }).t.now = n ∧
      (dispatchSlot env i { t := { t with now := n }, w := w, calls := [] }).t.tasks j =
        { id := ((j : Nat) : Int), flags := fl, arg := a2, func := g,
          exp := (n + val) % 4294967296, interval := val } ∧
      (∀ k, k ≠ i → k ≠ j →
        (dispatchSlot env i { t := { t with now := n }, w := w, calls := [] }).t.tasks k =
          t.tasks k) ∧
      slotCalls j (dispatchSlot env i { t := { t with now := n }, w := w, calls := [] }).calls
        = [] := by
  have hne : j ≠ i := fun e => absurd hij (e ▸ lt_irrefl _)
  have hsched := schedule_at { t with now := n } j val g a2 fl hg hfree
    (fun k hk => by
      by_cases hki : k = i
      · rw [hki]; exact hocc
      · exact (hquiet k hk hki).1)
  rw [dispatchSlot_eq, if_pos ⟨hocc, hdue⟩]
  simp only [hspawn, hsched]
  refine ⟨trivial, ?_, fun k hki hkj => ?_, ?_⟩
  · simp [Function.update_noteq hne]
  · simp [Function.update_noteq hki, Function.update_noteq hkj]
  · simp [slotCalls, Ne.symm hne]

/-- A task that the callback of slot `i` schedules into a slot `j` above `i` is invoked in
the same pass iff the 32-bit expiry `(now + interval) mod 2^32` is at most `now`. -/
theorem spawned_task_above {W : Type} (env : cb_env W) (i j : Fin TICKER_MAX_TASKS)
    (n : Nat) (t : ticker_t) (w : W) (val g a2 fl : Nat)
    (hij : i < j) (hg : g ≠ 0) (hocc : (t.tasks i).func ≠ 0) (hdue : n ≥ (t.tasks i).exp)
    (hspawn : ∀ t1 a w1,
      (env (t.tasks i).func t1 a w1).2.1 = (tickerScheduleTaskMs t1 val g a2 fl).2)
    (hfree : (t.tasks j).func = 0)
    (hquiet : ∀ k, k < j → k ≠ i → (t.tasks k).func ≠ 0 ∧ n < (t.tasks k).exp) :
    (tickerTick env n t w).calls.Pairwise (fun a b => a.slot < b.slot) ∧
      (tickerScheduleTaskMs { t with now := n } val g a2 fl).1 = ((j : Nat) : Int) ∧
      (slotCalls j (tickerTick env n t w).calls ≠ [] ↔ (n + val) % 4294967296 ≤ n) ∧
      (val = 0 → slotCalls j (tickerTick env n t w).calls ≠ []) ∧
      (∀ c ∈ slotCalls j (tickerTick env n t w).calls, c.func = g ∧ c.arg = a2) := by
  have hne : j ≠ i := fun e => absurd hij (e ▸ lt_irrefl _)
  have hsched := schedule_at { t with now := n } j val g a2 fl hg hfree
    (fun k hk => by
      by_cases hki : k = i
      · rw [hki]; exact hocc
      · exact (hquiet k hk hki).1)
  obtain ⟨l1, l2, hl, hlt1, hgt2, hpw2⟩ :=
    sorted_split (List.finRange TICKER_MAX_TASKS) (List.pairwise_lt_finRange _) i
      (List.mem_finRange i)
  have hj2 : j ∈ l2 := by
    have hmem : j ∈ l1 ++ i :: l2 := hl ▸ List.mem_finRange j
    rcases List.mem_append.mp hmem with h | h
    · exact absurd (hlt1 j h) (not_lt_of_gt hij)
    · rcases List.mem_cons.mp h with h | h
      · exact absurd h hne
      · exact h
  obtain ⟨m1, m2, hm, hltj, hgtj, _⟩ := sorted_split l2 hpw2 j hj2
  obtain ⟨s1, s2, s3, s4⟩ := dispatchSlot_spawn env i j n t w val g a2 fl hij hg hocc hdue
    hspawn hfree hquiet
  have h1 : l1.foldl (fun s k => dispatchSlot env k s)
      { t := { t with now := n }, w := w, calls := [] } =
      { t := { t with now := n }, w := w, calls := [] } :=
    foldl_dispatch_idle env l1 _ (fun k hk h => by
      have hki : k < i := hlt1 k hk
      exact absurd h.2 (not_le_of_gt
        (hquiet k (lt_trans hki hij) (fun e => absurd hki (e ▸ lt_irrefl _))).2))
  have h2 : m1.foldl (fun s k => dispatchSlot env k s)
      (dispatchSlot env i { t := { t with now := n }, w := w, calls := [] }) =
      dispatchSlot env i { t := { t with now := n }, w := w, calls := [] } :=
    foldl_dispatch_idle env m1 _ (fun k hk h => by
      have hkj : k < j := hltj k hk
      have hik : i < k := hgt2 k (by rw [hm]; exact List.mem_append_left _ hk)
      have hki : k ≠ i := fun e => absurd hik (e ▸ lt_irrefl _)
      have hkj2 : k ≠ j := fun e => absurd hkj (e ▸ lt_irrefl _)
      rw [s3 k hki hkj2, s1] at h
      exact absurd h.2 (not_le_of_gt (hquiet k hkj hki).2))
  have hjm2 : j ∉ m2 := fun h => absurd (hgtj j h) (lt_irrefl _)
  have hcalls : slotCalls j (tickerTick env n t w).calls =
      slotCalls j (dispatchSlot env j
        (dispatchSlot env i { t := { t with now := n }, w := w, calls := [] })).calls := by
    simp only [tickerTick, dispatchLoop]
    rw [hl, List.foldl_append, List.foldl_cons, h1, hm, List.foldl_append, List.foldl_cons,
      h2, foldl_dispatch_calls_other env j m2 hjm2]
  have hkey : slotCalls j (tickerTick env n t w).calls =
      if (n + val) % 4294967296 ≤ n then
        [⟨j, g, a2, (env g
          (dispatchSlot env i { t := { t with now := n }, w := w, calls := [] }).t a2
          (dispatchSlot env i { t := { t with now := n }, w := w, calls := [] }).w).1⟩]
      else [] := by
    rw [hcalls, dispatchSlot_eq]
    simp only [s1, s2]
    by_cases hd : (n + val) % 4294967296 ≤ n
    · rw [if_pos ⟨hg, hd⟩, if_pos hd]
      simp only [slotCalls, List.filter_append] at s4 ⊢
      rw [s4]
      simp
    · rw [if_neg (fun h => hd h.2), if_neg hd]
      exact s4
  refine ⟨tickerTick_calls_sorted env n t w, by rw [hsched], ?_, ?_, ?_⟩
  · rw [hkey]
    by_cases hd : (n + val) % 4294967296 ≤ n
    · simp [hd]
    · simp [hd]
  · intro hv
    rw [hkey, if_pos (by rw [hv]; exact Nat.mod_le _ _)]
    simp
  · intro c hc
    rw [hkey] at hc
    by_cases hd : (n + val) % 4294967296 ≤ n
    · rw [if_pos hd, List.mem_singleton] at hc
      rw [hc]; exact ⟨rfl, rfl⟩
    · rw [if_neg hd] at hc
      cases hc

/-- The first due slot of a pass is called on the scheduler as the tick call found it,
with `now` refreshed, and is called once. -/
theorem first_due_slot_call {W : Type} (env : cb_env W) (i : Fin TICKER_MAX_TASKS)
    (n : Nat) (t : ticker_t) (w : W)
    (hocc : (t.tasks i).func ≠ 0) (hdue : n ≥ (t.tasks i).exp)
    (hidle : ∀ k, k < i → ¬ ((t.tasks k).func ≠ 0 ∧ n ≥ (t.tasks k).exp)) :
    slotCalls i (tickerTick env n t w).calls =
      [⟨i, (t.tasks i).func, (t.tasks i).arg,
        (env (t.tasks i).func { t with now := n } (t.tasks i).arg w).1⟩] := by
  obtain ⟨l1, l2, hl, hlt1, hgt2, _⟩ :=
    sorted_split (List.finRange TICKER_MAX_TASKS) (List.pairwise_lt_finRange _) i
      (List.mem_finRange i)
  have h1 : l1.foldl (fun s k => dispatchSlot env k s)
      { t := { t with now := n }, w := w, calls := [] } =
      { t := { t with now := n }, w := w, calls := [] } :=
    foldl_dispatch_idle env l1 _ (fun k hk => hidle k (hlt1 k hk))
  have hi2 : i ∉ l2 := fun h => absurd (hgt2 i h) (lt_irrefl _)
  simp only [tickerTick, dispatchLoop]
  rw [hl, List.foldl_append, List.foldl_cons, h1, foldl_dispatch_calls_other env i l2 hi2,
    dispatchSlot_eq, if_pos ⟨hocc, hdue⟩]
  simp [slotCalls]

/-- A slot below the first due slot of a pass is not called in that pass, whatever the
callbacks do to it. -/
theorem slot_below_first_due_not_called {W : Type} (env : cb_env W)
    (i j : Fin TICKER_MAX_TASKS) (n : Nat) (t : ticker_t) (w : W) (hji : j < i)
    (hidle : ∀ k, k < i → ¬ ((t.tasks k).func ≠ 0 ∧ n ≥ (t.tasks k).exp)) :
    slotCalls j (tickerTick env n t w).calls = [] := by
  obtain ⟨l1, l2, hl, hlt1, hgt2, _⟩ :=
    sorted_split (List.finRange TICKER_MAX_TASKS) (List.pairwise_lt_finRange _) i
      (List.mem_finRange i)
  have h1 : l1.foldl (fun s k => dispatchSlot env k s)
      { t := { t with now := n }, w := w, calls := [] } =
      { t := { t with now := n }, w := w, calls := [] } :=
    foldl_dispatch_idle env l1 _ (fun k hk => hidle k (hlt1 k hk))
  have hj2 : j ∉ i :: l2 := by
    intro h
    rcases List.mem_cons.mp h with h | h
    · exact absurd hji (h ▸ lt_irrefl _)
    · exact absurd (lt_trans hji (hgt2 j h)) (lt_irrefl _)
  simp only [tickerTick, dispatchLoop]
  rw [hl, List.foldl_append, h1, foldl_dispatch_calls_other env j (i :: l2) hj2]
  rfl

/-- Claim C11, amended.  Let slot `i` be the first due slot of a `tickerTick` pass and let
its callback change the scheduler only by one successful `tickerScheduleTaskMs` call, the
new task landing in the FREE slot `j` (the other slots below `i` and `j` are OCCUPIED and
not due).  The callback of slot `i` is invoked once, on the scheduler with `now`
refreshed, and leaves the new task in slot `j`.  If `j` is below `i`, the new task is not
invoked within that pass, whatever its interval.  If `j` is above `i` and the expiry
`now + interval` does not wrap around `2^32`, the new task is invoked within that same
pass iff its interval is 0.  The invocations of a pass are logged with strictly
increasing slot numbers: the loop visits every slot once, in index order. -/
theorem tickerTick_spawned_task {W : Type} (env : cb_env W)
    (i j : Fin TICKER_MAX_TASKS) (n : Nat) (t : ticker_t) (w : W) (val g a2 fl : Nat)
    (hg : g ≠ 0) (hocc : (t.tasks i).func ≠ 0) (hdue : n ≥ (t.tasks i).exp)
    (hspawn : ∀ t1 a w1,
      (env (t.tasks i).func t1 a w1).2.1 = (tickerScheduleTaskMs t1 val g a2 fl).2)
    (hfree : (t.tasks j).func = 0)
    (hquiet : ∀ k, k < i ∨ k < j → k ≠ i → k ≠ j →
      (t.tasks k).func ≠ 0 ∧ n < (t.tasks k).exp) :
    slotCalls i (tickerTick env n t w).calls =
        [⟨i, (t.tasks i).func, (t.tasks i).arg,
          (env (t.tasks i).func { t with now := n } (t.tasks i).arg w).1⟩] ∧
      (env (t.tasks i).func { t with now := n } (t.tasks i).arg w).2.1 =
        { t with
          now := n
          tasks := Function.update t.tasks j
            { id := ((j : Nat) : Int), flags := fl, arg := a2, func := g,
              exp := (n + val) % 4294967296, interval := val } } ∧
      (j < i → slotCalls j (tickerTick env n t w).calls = []) ∧
      (i < j → n + val < 4294967296 →
        (slotCalls j (tickerTick env n t w).calls ≠ [] ↔ val = 0)) ∧
      (i < j → ∀ c ∈ slotCalls j (tickerTick env n t w).calls, c.func = g ∧ c.arg = a2) ∧
      (tickerTick env n t w).calls.Pairwise (fun a b => a.slot < b.slot) := by
  have hidle : ∀ k, k < i → ¬ ((t.tasks k).func ≠ 0 ∧ n ≥ (t.tasks k).exp) := by
    intro k hk h
    by_cases hkj : k = j
    · rw [hkj] at h; exact h.1 hfree
    · exact absurd h.2 (not_le_of_gt
        (hquiet k (Or.inl hk) (fun e => absurd hk (e ▸ lt_irrefl _)) hkj).2)
  have hsched := schedule_at { t with now := n } j val g a2 fl hg hfree
    (fun k hk => by
      by_cases hki : k = i
      · rw [hki]; exact hocc
      · exact (hquiet k (Or.inr hk) hki (fun e => absurd hk (e ▸ lt_irrefl _))).1)
  refine ⟨first_due_slot_call env i n t w hocc hdue hidle, ?_,
    fun hji => slot_below_first_due_not_called env i j n t w hji hidle, ?_, ?_,
    tickerTick_calls_sorted env n t w⟩
  · rw [hspawn, hsched]
  · intro hij hnowrap
    obtain ⟨_, _, h3, _, _⟩ := spawned_task_above env i j n t w val g a2 fl hij hg hocc
      hdue hspawn hfree (fun k hk hki =>
        hquiet k (Or.inr hk) hki (fun e => absurd hk (e ▸ lt_irrefl _)))
    rw [h3, Nat.mod_eq_of_lt hnowrap]
    omega
  · intro hij
    exact (spawned_task_above env i j n t w val g a2 fl hij hg hocc
      hdue hspawn hfree (fun k hk hki =>
        hquiet k (Or.inr hk) hki (fun e => absurd hk (e ▸ lt_irrefl _)))).2.2.2.2

theorem tickerTick_spawned_task_witness :
    (((2 : Nat) ≠ 0 ∧ (spawnTicker.tasks 0).func ≠ 0 ∧
        1010 ≥ (spawnTicker.tasks 0).exp ∧
        (∀ t1 a w1, (envSpawn (spawnTicker.tasks 0).func t1 a w1).2.1 =
          (tickerScheduleTaskMs t1 0 2 0 TASK_FLAG_NONE).2) ∧
        (spawnTicker.tasks 1).func = 0 ∧
        (∀ k : Fin TICKER_MAX_TASKS, k < 0 ∨ k < 1 → k ≠ 0 → k ≠ 1 →
          (spawnTicker.tasks k).func ≠ 0 ∧ 1010 < (spawnTicker.tasks k).exp)) ∧
      ((0 : Fin TICKER_MAX_TASKS) < 1 ∧ 1010 + 0 < 4294967296) ∧
      slotCalls 1 (tickerTick envSpawn 1010 spawnTicker ()).calls ≠ []) ∧
    (((2 : Nat) ≠ 0 ∧ (spawnBelowTicker.tasks 1).func ≠ 0 ∧
        1010 ≥ (spawnBelowTicker.tasks 1).exp ∧
        (∀ t1 a w1, (envSpawn (spawnBelowTicker.tasks 1).func t1 a w1).2.1 =
          (tickerScheduleTaskMs t1 0 2 0 TASK_FLAG_NONE).2) ∧
        (spawnBelowTicker.tasks 0).func = 0 ∧
        (∀ k : Fin TICKER_MAX_TASKS, k < 1 ∨ k < 0 → k ≠ 1 → k ≠ 0 →
          (spawnBelowTicker.tasks k).func ≠ 0 ∧ 1010 < (spawnBelowTicker.tasks k).exp)) ∧
      (0 : Fin TICKER_MAX_TASKS) < 1 ∧
      slotCalls 0 (tickerTick envSpawn 1010 spawnBelowTicker ()).calls = []) :=
  ⟨⟨⟨by decide, by decide, by decide, fun _ _ _ => rfl, by decide, by decide⟩,
      ⟨by decide, by decide⟩,
      ((tickerTick_spawned_task envSpawn 0 1 1010 spawnTicker () 0 2 0 TASK_FLAG_NONE
        (by decide) (by decide) (by decide) (fun _ _ _ => rfl) (by decide)
        (by decide)).2.2.2.1 (by decide) (by decide)).mpr rfl⟩,
    ⟨⟨by decide, by decide, by decide, fun _ _ _ => rfl, by decide, by decide⟩,
      by decide,
      (tickerTick_spawned_task envSpawn 1 0 1010 spawnBelowTicker () 0 2 0 TASK_FLAG_NONE
        (by decide) (by decide) (by decide) (fun _ _ _ => rfl) (by decide)
        (by decide)).2.2.1 (by decide)⟩⟩

/-- Claim C15 as stated fails.  In the scenario (init at 1000, A ONE_SHOT 50, B PERIODIC
30, tick calls at 1010, 1040, 1060, 1090, 1120) task B, in slot 1, is not invoked in the
tick call at 1060: it was re-armed to 1040 + 30 = 1070 by the call at 1040.  B is invoked
three times in all, each time returning `TASK_REPEAT`, and its slot is OCCUPIED after
every one of the five calls, also after the one at 1120. -/
theorem scenario_B_skips_1060 :
    (tickerRun envScenario [1010, 1040, 1060, 1090, 1120] scenarioTicker 0).map
        (fun r => slotCalls 1 r.calls) =
      [[], [⟨1, 2, 0, TASK_REPEAT⟩], [], [⟨1, 2, 0, TASK_REPEAT⟩],
        [⟨1, 2, 0, TASK_REPEAT⟩]] ∧
      (tickerRun envScenario [1010, 1040, 1060, 1090, 1120] scenarioTicker 0).map
        (fun r => (r.t.tasks 1).func) = [2, 2, 2, 2, 2] := by
  refine ⟨by decide, by decide⟩

/-- Claim C15, amended.  In the scenario, after scheduling, A is in slot 0 with expiry
1050 and B in slot 1 with expiry 1030.  The five tick calls at 1010, 1040, 1060, 1090 and
1120 invoke, in this order: nothing; B (returning `TASK_REPEAT`); A (returning
`TASK_DONE`); B (`TASK_REPEAT`); B (`TASK_REPEAT`).  So A is invoked exactly once, in the
call at 1060, and its slot is FREE from then on.  B is invoked in the calls at 1040, 1090
and 1120, the first calls with `now >= 1030`, `now >= 1070 = 1040 + 30` and
`now >= 1120 = 1090 + 30`; B's expiry after the five calls is 1030, 1070, 1070, 1120, 1150
and its slot is still OCCUPIED at the end. -/
theorem scenario_end_to_end :
    (scenarioTicker.tasks 0).func = 1 ∧ (scenarioTicker.tasks 0).exp = 1050 ∧
      (scenarioTicker.tasks 1).func = 2 ∧ (scenarioTicker.tasks 1).exp = 1030 ∧
      (tickerRun envScenario [1010, 1040, 1060, 1090, 1120] scenarioTicker 0).map
        (fun r => r.calls) =
      [[], [⟨1, 2, 0, TASK_REPEAT⟩], [⟨0, 1, 0, TASK_DONE⟩], [⟨1, 2, 0, TASK_REPEAT⟩],
        [⟨1, 2, 0, TASK_REPEAT⟩]] ∧
      (tickerRun envScenario [1010, 1040, 1060, 1090, 1120] scenarioTicker 0).map
        (fun r => ((r.t.tasks 0).func, (r.t.tasks 1).func, (r.t.tasks 1).exp)) =
      [(1, 2, 1030), (1, 2, 1070), (0, 2, 1070), (0, 2, 1120), (0, 2, 1150)] := by
  refine ⟨by decide, by decide, by decide, by decide, by decide, by decide⟩

/-! ## The id invariant and `tickerDelayMs` -/

theorem schedule_cases (t : ticker_t) (val func arg flags : Nat) :
    tickerScheduleTaskMs t val func arg flags = (-1, t) ∨
      ∃ i : Fin TICKER_MAX_TASKS, (t.tasks i).func = 0 ∧ func ≠ 0 ∧
        tickerScheduleTaskMs t val func arg flags =
          (((i : Nat) : Int),
            { t with
              tasks := Function.update t.tasks i
                { id := ((i : Nat) : Int), flags := flags, arg := arg, func := func,
                  exp := (t.now + val) % 4294967296, interval := val } }) := by
  by_cases hf : func = 0
  · left; rw [hf]; simp [tickerScheduleTaskMs]
  · by_cases hfree : ∃ i, (t.tasks i).func = 0
    · obtain ⟨i, hfr, _, hres⟩ := schedule_lowest_free t val func arg flags hf hfree
      exact Or.inr ⟨i, hfr, hf, hres⟩
    · left
      exact schedule_all_occupied t val func arg flags
        (fun i h => hfree ⟨i, h⟩)

theorem schedule_keeps_id (t : ticker_t) (val func arg flags : Nat)
    (h : ∀ i, (t.tasks i).func ≠ 0 → (t.tasks i).id = ((i : Nat) : Int)) :
    ∀ i, ((tickerScheduleTaskMs t val func arg flags).2.tasks i).func ≠ 0 →
      ((tickerScheduleTaskMs t val func arg flags).2.tasks i).id = ((i : Nat) : Int) := by
  rcases schedule_cases t val func arg flags with hres | ⟨j, _, _, hres⟩
  · rw [hres]; exact h
  · rw [hres]
    intro i
    by_cases hij : i = j
    · subst hij; simp
    · simp only [Function.update_noteq hij]; exact h i

theorem scheduleAll_keeps_id (calls : List sched_args) :
    ∀ t : ticker_t, (∀ i, (t.tasks i).func ≠ 0 → (t.tasks i).id = ((i : Nat) : Int)) →
      ∀ i, ((scheduleAll calls t).2.tasks i).func ≠ 0 →
        ((scheduleAll calls t).2.tasks i).id = ((i : Nat) : Int) := by
  induction calls with
  | nil => intro t h; exact h
  | cons c cs ih =>
    intro t h
    exact ih _ (schedule_keeps_id t c.val c.func c.arg c.flags h)

theorem dispatchSlot_keeps_id {W : Type} (env : cb_env W) (henv : onlySchedules env)
    (k : Fin TICKER_MAX_TASKS) (st : dispatch_t W)
    (h : ∀ i, (st.t.tasks i).func ≠ 0 → (st.t.tasks i).id = ((i : Nat) : Int)) :
    ∀ i, ((dispatchSlot env k st).t.tasks i).func ≠ 0 →
      ((dispatchSlot env k st).t.tasks i).id = ((i : Nat) : Int) := by
  rw [dispatchSlot_eq]
  split_ifs with hd
  · obtain ⟨calls, hc⟩ := henv (st.t.tasks k).func st.t (st.t.tasks k).arg st.w
    have h2 := scheduleAll_keeps_id calls st.t h
    rw [← hc] at h2
    intro i
    by_cases hik : i = k
    · subst hik
      simp only [Function.update_same]
      intro hf
      unfold afterCall at hf ⊢
      split_ifs at hf ⊢
      · exact h2 i hf
      · exact absurd rfl hf
    · simp only [Function.update_noteq hik]
      exact h2 i
  · exact h

theorem foldl_dispatch_keeps_id {W : Type} (env : cb_env W) (henv : onlySchedules env)
    (l : List (Fin TICKER_MAX_TASKS)) :
    ∀ st : dispatch_t W,
      (∀ i, (st.t.tasks i).func ≠ 0 → (st.t.tasks i).id = ((i : Nat) : Int)) →
      ∀ i, ((l.foldl (fun s k => dispatchSlot env k s) st).t.tasks i).func ≠ 0 →
        ((l.foldl (fun s k => dispatchSlot env k s) st).t.tasks i).id = ((i : Nat) : Int) := by
  induction l with
  | nil => intro st h; exact h
  | cons a l ih =>
    intro st h
    exact ih _ (dispatchSlot_keeps_id env henv a st h)

theorem tickerTick_keeps_id {W : Type} (env : cb_env W) (henv : onlySchedules env)
    (n : Nat) (t : ticker_t) (w : W)
    (h : ∀ i, (t.tasks i).func ≠ 0 → (t.tasks i).id = ((i : Nat) : Int)) :
    ∀ i, ((tickerTick env n t w).t.tasks i).func ≠ 0 →
      ((tickerTick env n t w).t.tasks i).id = ((i : Nat) : Int) := by
  simp only [tickerTick, rateFlags_tasks, dispatchLoop]
  exact foldl_dispatch_keeps_id env henv _ _ h

/-- Claim C17.  Callbacks change the task table only through `tickerScheduleTaskMs`.
In every scheduler state reached from an all-FREE table by `tickerScheduleTaskMs` and
`tickerTick` calls, every OCCUPIED slot at index `i` has `id = i`; and a
`tickerScheduleTaskMs` call on such a state that does not return `-1` returns the index
`i` (0 to 7) of a slot that was FREE and that now holds the new task with `id = i`. -/
theorem reachable_id_is_index {W : Type} (env : cb_env W) (t : ticker_t)
    (henv : onlySchedules env) (hr : Reachable env t) :
    (∀ i, (t.tasks i).func ≠ 0 → (t.tasks i).id = ((i : Nat) : Int)) ∧
      ∀ val func arg flags, (tickerScheduleTaskMs t val func arg flags).1 ≠ -1 →
        ∃ i : Fin TICKER_MAX_TASKS,
          (tickerScheduleTaskMs t val func arg flags).1 = ((i : Nat) : Int) ∧
          (t.tasks i).func = 0 ∧
          (tickerScheduleTaskMs t val func arg flags).2.tasks i =
            { id := ((i : Nat) : Int), flags := flags, arg := arg, func := func,
              exp := (t.now + val) % 4294967296, interval := val } ∧
          ((tickerScheduleTaskMs t val func arg flags).2.tasks i).func ≠ 0 := by
  constructor
  · induction hr with
    | start t h => intro i hi; exact absurd (h i) hi
    | schedule t val func arg flags _ ih => exact schedule_keeps_id t val func arg flags ih
    | tick n t w _ ih => exact tickerTick_keeps_id env henv n t w ih
  · intro val func arg flags hne
    rcases schedule_cases t val func arg flags with hres | ⟨i, hfr, hf, hres⟩
    · rw [hres] at hne; exact absurd rfl hne
    · refine ⟨i, by rw [hres], hfr, by rw [hres]; simp, by rw [hres]; simpa using hf⟩

theorem onlySchedules_envSpawn : onlySchedules envSpawn := by
  intro f t a w
  by_cases hf : f = 1
  · exact ⟨[⟨0, 2, 0, TASK_FLAG_NONE⟩], by simp [envSpawn, hf, scheduleAll]⟩
  · exact ⟨[], by simp [envSpawn, hf, scheduleAll]⟩

theorem reachable_id_is_index_witness :
    (onlySchedules envSpawn ∧
      Reachable envSpawn (tickerTick envSpawn 1010 spawnBelowTicker ()).t ∧
      ((tickerTick envSpawn 1010 spawnBelowTicker ()).t.tasks 0).func = 2 ∧
      (tickerTick envSpawn 1010 spawnBelowTicker ()).calls = [⟨1, 1, 0, TASK_DONE⟩]) ∧
    ((∀ i, ((tickerTick envSpawn 1010 spawnBelowTicker ()).t.tasks i).func ≠ 0 →
        ((tickerTick envSpawn 1010 spawnBelowTicker ()).t.tasks i).id = ((i : Nat) : Int)) ∧
      ∀ val func arg flags,
        (tickerScheduleTaskMs (tickerTick envSpawn 1010 spawnBelowTicker ()).t val func arg flags).1
          ≠ -1 →
        ∃ i : Fin TICKER_MAX_TASKS,
          (tickerScheduleTaskMs (tickerTick envSpawn 1010 spawnBelowTicker ()).t
            val func arg flags).1 = ((i : Nat) : Int) ∧
          ((tickerTick envSpawn 1010 spawnBelowTicker ()).t.tasks i).func = 0 ∧
          (tickerScheduleTaskMs (tickerTick envSpawn 1010 spawnBelowTicker ()).t
            val func arg flags).2.tasks i =
            { id := ((i : Nat) : Int), flags := flags, arg := arg, func := func,
              exp := ((tickerTick envSpawn 1010 spawnBelowTicker ()).t.now + val) % 4294967296,
              interval := val } ∧
          ((tickerScheduleTaskMs (tickerTick envSpawn 1010 spawnBelowTicker ()).t
            val func arg flags).2.tasks i).func ≠ 0) :=
  ⟨⟨onlySchedules_envSpawn,
      Reachable.tick 1010 spawnBelowTicker ()
        (Reachable.tick 1005 _ ()
          (Reachable.schedule _ 10 1 0 TASK_FLAG_NONE
            (Reachable.schedule (idleTicker 1000) 5 3 0 TASK_FLAG_NONE
              (Reachable.start (idleTicker 1000) (fun _ => rfl))))),
      by decide, by decide⟩,
    reachable_id_is_index envSpawn (tickerTick envSpawn 1010 spawnBelowTicker ()).t
      onlySchedules_envSpawn
      (Reachable.tick 1010 spawnBelowTicker ()
        (Reachable.tick 1005 _ ()
          (Reachable.schedule _ 10 1 0 TASK_FLAG_NONE
            (Reachable.schedule (idleTicker 1000) 5 3 0 TASK_FLAG_NONE
              (Reachable.start (idleTicker 1000) (fun _ => rfl))))))⟩

theorem delayLoop_returns {W : Type} (kick : Nat → W → W) (val wd now : Nat)
    (hval : val < 4294967296) (r : Nat) (post : List Nat)
    (hr : (val : Int) ≤ ((r : Int) - (now : Int)) % 4294967296) (pre : List Nat) :
    ∀ st : delay_t W,
      (∀ m ∈ pre, ((m : Int) - (now : Int)) % 4294967296 < (val : Int)) →
      delayLoop kick val wd now (pre ++ r :: post) st =
        some { polls := st.polls + pre.length + 1
               kicks := st.kicks + (if wd ≠ 0 then pre.length else 0)
               w := if wd ≠ 0 then (kick wd)^[pre.length] st.w else st.w } := by
  have hmod : (val * SYSCNTxMS) % 4294967296 = val := by
    simp only [SYSCNTxMS, Nat.mul_one]; exact Nat.mod_eq_of_lt hval
  induction pre with
  | nil =>
    intro st _
    have h : ¬ DIFFU32 r now < val := by unfold DIFFU32; omega
    simp only [List.nil_append, delayLoop, hmod, if_neg h, List.length_nil, Nat.add_zero,
      Function.iterate_zero, id_eq, ite_self]
  | cons m pre ih =>
    intro st hpre
    have h : DIFFU32 m now < val := by
      have := hpre m (List.mem_cons_self m pre)
      unfold DIFFU32; omega
    have hpre2 : ∀ k ∈ pre, ((k : Int) - (now : Int)) % 4294967296 < (val : Int) :=
      fun k hk => hpre k (List.mem_cons_of_mem m hk)
    have e : delayLoop kick val wd now ((m :: pre) ++ r :: post) st =
        if DIFFU32 m now < (val * SYSCNTxMS) % 4294967296 then
          if wd ≠ 0 then
            delayLoop kick val wd now (pre ++ r :: post)
              { polls := st.polls + 1, kicks := st.kicks + 1, w := kick wd st.w }
          else
            delayLoop kick val wd now (pre ++ r :: post)
              { polls := st.polls + 1, kicks := st.kicks, w := st.w }
        else some { polls := st.polls + 1, kicks := st.kicks, w := st.w } := rfl
    rw [e, hmod, if_pos h]
    by_cases hwd : wd ≠ 0
    · rw [if_pos hwd, ih _ hpre2]
      simp only [if_pos hwd, List.length_cons, Function.iterate_succ, Function.comp_apply]
      congr 2
      · omega
      · omega
    · rw [if_neg hwd, ih _ hpre2]
      simp only [if_neg hwd, List.length_cons]
      congr 2
      omega

/-- Claim C18.  Let `s` be the start reading, `val` the duration (a `uint32_t`) and let the
loop condition read `pre ++ r :: post`, where every reading `m` of `pre` has
`((m - s) mod 2^32) < val` and `r` has `((r - s) mod 2^32) >= val`.  Then
`tickerDelayMs` returns at the poll that reads `r`, poll number `pre.length + 1`, having
called a non-null `wd` once for each of the `pre.length` earlier polls and never when `wd`
is null.  With `val = 0` it returns at the first poll without calling `wd`. -/
theorem tickerDelayMs_returns {W : Type} (kick : Nat → W → W) (val wd s : Nat)
    (pre : List Nat) (r : Nat) (post : List Nat) (w : W)
    (hval : val < 4294967296)
    (hpre : ∀ m ∈ pre, ((m : Int) - (s : Int)) % 4294967296 < (val : Int))
    (hr : (val : Int) ≤ ((r : Int) - (s : Int)) % 4294967296) :
    tickerDelayMs kick val wd s (pre ++ r :: post) w =
        some { polls := pre.length + 1
               kicks := if wd ≠ 0 then pre.length else 0
               w := if wd ≠ 0 then (kick wd)^[pre.length] w else w } ∧
      tickerDelayMs kick 0 wd s (r :: post) w = some { polls := 1, kicks := 0, w := w } := by
  constructor
  · have h := delayLoop_returns kick val wd s hval r post hr pre
      { polls := 0, kicks := 0, w := w } hpre
    simp only [Nat.zero_add] at h
    exact h
  · have h := delayLoop_returns kick 0 wd s (by decide) r post (by omega) []
      { polls := 0, kicks := 0, w := w } (fun m hm => by cases hm)
    simp only [List.nil_append, List.length_nil, Nat.add_zero, Nat.zero_add,
      Function.iterate_zero, id_eq, ite_self] at h
    exact h

theorem tickerDelayMs_returns_witness :
    ((5 : Nat) < 4294967296 ∧
      (∀ m ∈ [4294967294, 4294967295, 0, 2],
        ((m : Int) - ((4294967294 : Nat) : Int)) % 4294967296 < ((5 : Nat) : Int)) ∧
      ((5 : Nat) : Int) ≤ (((3 : Nat) : Int) - ((4294967294 : Nat) : Int)) % 4294967296) ∧
    (tickerDelayMs (fun _ k => k + 1) 5 1 4294967294
          ([4294967294, 4294967295, 0, 2] ++ 3 :: [4, 5]) (0 : Nat) =
        some { polls := [4294967294, 4294967295, 0, 2].length + 1
               kicks := if (1 : Nat) ≠ 0 then [4294967294, 4294967295, 0, 2].length else 0
               w := if (1 : Nat) ≠ 0 then
                      ((fun _ k => k + 1 : Nat → Nat → Nat) 1)^[
                        [4294967294, 4294967295, 0, 2].length] 0
                    else 0 } ∧
      tickerDelayMs (fun _ k => k + 1) 0 1 4294967294 (3 :: [4, 5]) (0 : Nat) =
        some { polls := 1, kicks := 0, w := 0 }) :=
  ⟨⟨by decide, by decide, by decide⟩,
    tickerDelayMs_returns (fun _ k => k + 1) 5 1 4294967294 [4294967294, 4294967295, 0, 2]
      3 [4, 5] (0 : Nat) (by decide) (by decide) (by decide)⟩

/-! ## Rate flags against the unbounded-time algorithm -/

theorem rate_refines {W : Type} (env : cb_env W) (r : rate_t) (hn : keepsNow env)
    (hk : keepsTicks env) (Ts : List Nat) :
    ∀ (l b : Nat) (t : ticker_t) (w : W), l ≤ b → List.Chain (· ≤ ·) b Ts →
      lagBounded (period r) l Ts → tickOf r t % 4294967296 = l % 4294967296 →
      (tickerRun env (Ts.map (fun T => T % 4294967296)) t w).map
          (fun x => (HzOf r x.t, tickOf r x.t % 4294967296)) =
        (unboundedRate (period r) l Ts).map (fun y => (y.1, y.2 % 4294967296)) := by
  induction Ts with
  | nil => intro l b t w _ _ _ _; rfl
  | cons T Ts ih =>
    intro l b t w hlb hch hlag ht
    obtain ⟨hbT, hch2⟩ := List.chain_cons.mp hch
    obtain ⟨hlt, hlag2⟩ := hlag
    obtain ⟨h1, h2⟩ := rate_after_tick env (T % 4294967296) t w r hn hk
    have hd : DIFFU32 (T % 4294967296) (tickOf r t) = T - l := by
      unfold DIFFU32; omega
    rw [hd] at h1 h2
    by_cases hp : period r ≤ T - l
    · rw [if_pos hp] at h2 hlag2
      have ht2 : tickOf r (tickerTick env (T % 4294967296) t w).t % 4294967296 =
          (l + period r) % 4294967296 := by rw [h2]; omega
      have := ih (l + period r) T _ (tickerTick env (T % 4294967296) t w).w (by omega) hch2
        hlag2 ht2
      simp only [List.map_cons, tickerRun, unboundedRate, if_pos hp, this, h1, ht2,
        decide_eq_true hp]
    · rw [if_neg hp] at h2 hlag2
      have ht2 : tickOf r (tickerTick env (T % 4294967296) t w).t % 4294967296 =
          l % 4294967296 := by rw [h2]; exact ht
      have := ih l T _ (tickerTick env (T % 4294967296) t w).w (by omega) hch2 hlag2 ht2
      simp only [List.map_cons, tickerRun, unboundedRate, if_neg hp, this, h1, ht2,
        decide_eq_false hp]

/-- Claim C14.  Take any rate, an initialisation at true time `T0` and tick calls at true
(unbounded) times `Ts` that never decrease, the 32-bit counter reading `T mod 2^32` at
time `T`, such that in the run on unbounded naturals the lag between the current time and
the last-fire time stays below `2^32`.  Then the flag after each tick call, computed by
`tickerTick` on the 32-bit counters, equals the flag that the same algorithm computes on
unbounded naturals, wherever `now` or the last-fire counter wraps around `2^32`.
Callbacks are taken to leave `now` and the last-fire counters as they find them. -/
theorem rate_flags_refine_unbounded {W : Type} (env : cb_env W) (r : rate_t) (T0 : Nat)
    (Ts : List Nat) (t : ticker_t) (w : W) (hn : keepsNow env) (hk : keepsTicks env)
    (hsorted : List.Chain (· ≤ ·) T0 Ts) (hlag : lagBounded (period r) T0 Ts) :
    (tickerRun env (Ts.map (fun T => T % 4294967296))
        (tickerInit (T0 % 4294967296) t) w).map (fun x => HzOf r x.t) =
      (unboundedRate (period r) T0 Ts).map (fun y => y.1) := by
  have h := rate_refines env r hn hk Ts T0 T0 (tickerInit (T0 % 4294967296) t) w
    (le_refl _) hsorted hlag (by rw [tickOf_tickerInit]; omega)
  have h2 := congrArg (List.map Prod.fst) h
  simp only [List.map_map] at h2
  exact h2

theorem rate_flags_refine_unbounded_witness :
    (keepsNow envRepeat ∧ keepsTicks envRepeat ∧
      List.Chain (· ≤ ·) 4294967294 [4294967295, 4294967298, 4294967298, 4294967306] ∧
      lagBounded (period rate_t.Hz200) 4294967294
        [4294967295, 4294967298, 4294967298, 4294967306]) ∧
    ((tickerRun envRepeat
          ([4294967295, 4294967298, 4294967298, 4294967306].map
            (fun T => T % 4294967296))
          (tickerInit (4294967294 % 4294967296) periodicTicker) ()).map
        (fun x => HzOf rate_t.Hz200 x.t) =
      (unboundedRate (period rate_t.Hz200) 4294967294
        [4294967295, 4294967298, 4294967298, 4294967306]).map (fun y => y.1)) :=
  ⟨⟨fun _ _ _ _ => rfl, fun _ _ _ _ _ => rfl, by simp,
      by simp [lagBounded, period, syscntPERIOD_Hz200, SYSCNTxMS]⟩,
    rate_flags_refine_unbounded envRepeat rate_t.Hz200 4294967294
      [4294967295, 4294967298, 4294967298, 4294967306] periodicTicker ()
      (fun _ _ _ _ => rfl) (fun _ _ _ _ _ => rfl) (by simp)
      (by simp [lagBounded, period, syscntPERIOD_Hz200, SYSCNTxMS])⟩

/-! ## Pulse counts of a rate over a run of tick calls -/

theorem period_pos (r : rate_t) : 0 < period r := by
  cases r <;> decide

theorem period_le (r : rate_t) : period r ≤ 1000 := by
  cases r <;> decide

theorem pulses_cons {W : Type} (r : rate_t) (x : dispatch_t W) (rs : List (dispatch_t W)) :
    pulses r (x :: rs) = (if HzOf r x.t = true then 1 else 0) + pulses r rs := by
  unfold pulses
  rw [List.countP_cons]
  omega

/-- Counting invariant of one rate over a run with non-decreasing times: with `c` pulses
so far the last-fire counter is `(t0 + c * period) mod 2^32` and `c * period` does not
exceed the elapsed time. -/
theorem count_run {W : Type} (env : cb_env W) (r : rate_t) (hn : keepsNow env)
    (hk : keepsTicks env) (t0 : Nat) (ds : List Nat) :
    ∀ (b c : Nat) (t : ticker_t) (w : W), t.now = (t0 + b) % 4294967296 →
      tickOf r t = (t0 + c * period r) % 4294967296 → c * period r ≤ b → b < 4294967296 →
      List.Chain (· ≤ ·) b ds → (∀ d ∈ ds, d < 4294967296) →
      ∃ e, b ≤ e ∧ e < 4294967296 ∧
        (tickerRunEnd env (ds.map (fun d => (t0 + d) % 4294967296)) t w).now =
          (t0 + e) % 4294967296 ∧
        tickOf r (tickerRunEnd env (ds.map (fun d => (t0 + d) % 4294967296)) t w) =
          (t0 + (c + pulses r
            (tickerRun env (ds.map (fun d => (t0 + d) % 4294967296)) t w)) * period r)
            % 4294967296 ∧
        (c + pulses r (tickerRun env (ds.map (fun d => (t0 + d) % 4294967296)) t w))
          * period r ≤ e := by
  induction ds with
  | nil =>
    intro b c t w hnow htick hc hb _ _
    exact ⟨b, le_refl b, hb, hnow, by simpa [pulses, tickerRun, tickerRunEnd] using htick,
      by simpa [pulses, tickerRun] using hc⟩
  | cons d ds ih =>
    intro b c t w hnow htick hc hb hch hds
    obtain ⟨hbd, hch2⟩ := List.chain_cons.mp hch
    have hd : d < 4294967296 := hds d (List.mem_cons_self d ds)
    obtain ⟨h1, h2⟩ := rate_after_tick env ((t0 + d) % 4294967296) t w r hn hk
    have hnow2 := tickerTick_now env hn ((t0 + d) % 4294967296) t w
    have hlag : DIFFU32 ((t0 + d) % 4294967296) (tickOf r t) = d - c * period r := by
      rw [htick]; unfold DIFFU32; omega
    rw [hlag] at h1 h2
    have hsucc : (c + 1) * period r = c * period r + period r := Nat.succ_mul c (period r)
    have e1 : tickerRun env ((d :: ds).map (fun d => (t0 + d) % 4294967296)) t w =
        tickerTick env ((t0 + d) % 4294967296) t w ::
          tickerRun env (ds.map (fun d => (t0 + d) % 4294967296))
            (tickerTick env ((t0 + d) % 4294967296) t w).t
            (tickerTick env ((t0 + d) % 4294967296) t w).w := rfl
    have e2 : tickerRunEnd env ((d :: ds).map (fun d => (t0 + d) % 4294967296)) t w =
        tickerRunEnd env (ds.map (fun d => (t0 + d) % 4294967296))
          (tickerTick env ((t0 + d) % 4294967296) t w).t
          (tickerTick env ((t0 + d) % 4294967296) t w).w := rfl
    rw [e1, e2, pulses_cons]
    generalize tickerTick env ((t0 + d) % 4294967296) t w = x at h1 h2 hnow2 ⊢
    by_cases hp : period r ≤ d - c * period r
    · rw [if_pos hp] at h2
      have htick2 : tickOf r x.t = (t0 + (c + 1) * period r) % 4294967296 := by
        rw [h2, htick]; omega
      obtain ⟨e, he1, he2, he3, he4, he5⟩ := ih d (c + 1) x.t x.w hnow2 htick2 (by omega) hd
        hch2 (fun y hy => hds y (List.mem_cons_of_mem d hy))
      have hf : HzOf r x.t = true := by rw [h1]; exact decide_eq_true hp
      rw [if_pos hf]
      have e3 : c + (1 + pulses r (tickerRun env (ds.map (fun d => (t0 + d) % 4294967296))
          x.t x.w)) = c + 1 + pulses r (tickerRun env
            (ds.map (fun d => (t0 + d) % 4294967296)) x.t x.w) := by omega
      rw [e3]
      exact ⟨e, by omega, he2, he3, he4, he5⟩
    · rw [if_neg hp] at h2
      have htick2 : tickOf r x.t = (t0 + c * period r) % 4294967296 := by rw [h2, htick]
      obtain ⟨e, he1, he2, he3, he4, he5⟩ := ih d c x.t x.w hnow2 htick2 (by omega) hd
        hch2 (fun y hy => hds y (List.mem_cons_of_mem d hy))
      have hf : ¬ HzOf r x.t = true := by rw [h1]; simpa using hp
      rw [if_neg hf, Nat.zero_add]
      exact ⟨e, by omega, he2, he3, he4, he5⟩

/-- Claim C19.  Rate flags never fire early.  After `tickerInit` at reading `t0` and tick
calls at the non-decreasing elapsed times `ds` (each below `2^32`, the reading at elapsed
time `d` being `(t0 + d) mod 2^32`), with `c` the number of tick calls so far after which
the flag of the rate was 1: the last-fire counter is `(t0 + c * period) mod 2^32`, and
`c * period <= elapsed(now, t0)`, that is `c <= elapsed / period`.  The statement is about
the end of an arbitrary such run, hence about the state after every tick call.  Callbacks
are taken to leave `now` and the last-fire counters as they find them. -/
theorem rate_never_early {W : Type} (env : cb_env W) (r : rate_t) (t0 : Nat)
    (ds : List Nat) (t : ticker_t) (w : W) (hn : keepsNow env) (hk : keepsTicks env)
    (ht0 : t0 < 4294967296) (hsorted : List.Chain (· ≤ ·) 0 ds)
    (hb : ∀ d ∈ ds, d < 4294967296) :
    tickOf r (tickerRunEnd env (ds.map (fun d => (t0 + d) % 4294967296))
        (tickerInit t0 t) w) =
      (t0 + pulses r (tickerRun env (ds.map (fun d => (t0 + d) % 4294967296))
        (tickerInit t0 t) w) * period r) % 4294967296 ∧
    pulses r (tickerRun env (ds.map (fun d => (t0 + d) % 4294967296))
        (tickerInit t0 t) w) * period r ≤
      DIFFU32 (tickerRunEnd env (ds.map (fun d => (t0 + d) % 4294967296))
        (tickerInit t0 t) w).now t0 ∧
    pulses r (tickerRun env (ds.map (fun d => (t0 + d) % 4294967296))
        (tickerInit t0 t) w) ≤
      DIFFU32 (tickerRunEnd env (ds.map (fun d => (t0 + d) % 4294967296))
        (tickerInit t0 t) w).now t0 / period r := by
  obtain ⟨e, _, he2, he3, he4, he5⟩ := count_run env r hn hk t0 ds 0 0 (tickerInit t0 t) w
    (by show t0 = (t0 + 0) % 4294967296; omega)
    (by rw [tickOf_tickerInit]; omega) (by omega) (by omega) hsorted hb
  simp only [Nat.zero_add] at he4 he5
  have hel : DIFFU32 (tickerRunEnd env (ds.map (fun d => (t0 + d) % 4294967296))
      (tickerInit t0 t) w).now t0 = e := by
    rw [he3]; unfold DIFFU32; omega
  rw [hel]
  exact ⟨he4, he5, (Nat.le_div_iff_mul_le (period_pos r)).mpr he5⟩

/-! ## Drift and lag of a rate over a run of tick calls -/

/-- Claim C13 as stated fails.  After `tickerInit` at 0, tick calls every 2 ticks (at 2,
4, 6, 8, 10) raise the 1000 Hz flag (period 1) in each of the five calls and no more than
once per call: 5 pulses times period 1 is 5, while the elapsed time is 10, so the two
differ by 5 periods. -/
theorem pulses_lag_behind :
    pulses rate_t.Hz1000
        (tickerRun envRepeat [2, 4, 6, 8, 10] (tickerInit 0 (idleTicker 0)) ()) = 5 ∧
      period rate_t.Hz1000 = 1 ∧
      DIFFU32 (tickerRunEnd envRepeat [2, 4, 6, 8, 10] (tickerInit 0 (idleTicker 0)) ()).now 0
        = 10 ∧
      pulses rate_t.Hz1000
          (tickerRun envRepeat [2, 4, 6, 8, 10] (tickerInit 0 (idleTicker 0)) ())
          * period rate_t.Hz1000 + period rate_t.Hz1000 <
        DIFFU32 (tickerRunEnd envRepeat [2, 4, 6, 8, 10] (tickerInit 0 (idleTicker 0)) ()).now
          0 := by
  refine ⟨by decide, by decide, by decide, by decide⟩

theorem runEnd_mem {W : Type} (env : cb_env W) (ns : List Nat) :
    ∀ (t : ticker_t) (w : W), ns ≠ [] →
      ∃ x ∈ tickerRun env ns t w, tickerRunEnd env ns t w = x.t := by
  induction ns with
  | nil => intro t w h; exact absurd rfl h
  | cons n ns ih =>
    intro t w _
    by_cases hns : ns = []
    · subst hns
      exact ⟨tickerTick env n t w, List.mem_cons_self _ _, rfl⟩
    · obtain ⟨x, hx, he⟩ := ih (tickerTick env n t w).t (tickerTick env n t w).w hns
      exact ⟨x, List.mem_cons_of_mem _ hx, he⟩

/-- After a tick call that left the flag of a rate at 0, less than one period is
pending for that rate. -/
theorem run_flag_false_lag {W : Type} (env : cb_env W) (r : rate_t) (hn : keepsNow env)
    (hk : keepsTicks env) (ns : List Nat) :
    ∀ (t : ticker_t) (w : W), ∀ x ∈ tickerRun env ns t w, HzOf r x.t = false →
      DIFFU32 x.t.now (tickOf r x.t) < period r := by
  induction ns with
  | nil => intro t w x hx; cases hx
  | cons n ns ih =>
    intro t w x hx hf
    have e1 : tickerRun env (n :: ns) t w =
        tickerTick env n t w ::
          tickerRun env ns (tickerTick env n t w).t (tickerTick env n t w).w := rfl
    rw [e1] at hx
    rcases List.mem_cons.mp hx with rfl | hx
    · obtain ⟨h1, h2⟩ := rate_after_tick env n t w r hn hk
      have h3 := tickerTick_now env hn n t w
      rw [h1, decide_eq_false_iff_not] at hf
      rw [if_neg hf] at h2
      rw [h2, h3]
      omega
    · exact ih _ _ x hx hf

/-- Claim C13, amended.  After `tickerInit` at reading `t0` and tick calls at
non-decreasing elapsed times `ds`, however irregularly spaced (each below `2^32`), with
`c` the number of tick calls after which the flag of the rate was 1: `c * period` never
exceeds `elapsed(now_final, now_initial)`; the difference is exactly the pending lag
`elapsed(now_final, lastFire_final)`; and it is below one period whenever the last tick
call left the flag at 0, that is, when the rate has caught up.  Callbacks are taken to
leave `now` and the last-fire counters as they find them. -/
theorem pulses_account {W : Type} (env : cb_env W) (r : rate_t) (t0 : Nat)
    (ds : List Nat) (t : ticker_t) (w : W) (hn : keepsNow env) (hk : keepsTicks env)
    (ht0 : t0 < 4294967296) (hsorted : List.Chain (· ≤ ·) 0 ds)
    (hb : ∀ d ∈ ds, d < 4294967296) :
    pulses r (tickerRun env (ds.map (fun d => (t0 + d) % 4294967296))
        (tickerInit t0 t) w) * period r ≤
      DIFFU32 (tickerRunEnd env (ds.map (fun d => (t0 + d) % 4294967296))
        (tickerInit t0 t) w).now t0 ∧
    pulses r (tickerRun env (ds.map (fun d => (t0 + d) % 4294967296))
        (tickerInit t0 t) w) * period r +
      DIFFU32 (tickerRunEnd env (ds.map (fun d => (t0 + d) % 4294967296))
          (tickerInit t0 t) w).now
        (tickOf r (tickerRunEnd env (ds.map (fun d => (t0 + d) % 4294967296))
          (tickerInit t0 t) w)) =
      DIFFU32 (tickerRunEnd env (ds.map (fun d => (t0 + d) % 4294967296))
        (tickerInit t0 t) w).now t0 ∧
    (ds ≠ [] →
      HzOf r (tickerRunEnd env (ds.map (fun d => (t0 + d) % 4294967296))
        (tickerInit t0 t) w) = false →
      DIFFU32 (tickerRunEnd env (ds.map (fun d => (t0 + d) % 4294967296))
          (tickerInit t0 t) w).now t0 <
        pulses r (tickerRun env (ds.map (fun d => (t0 + d) % 4294967296))
          (tickerInit t0 t) w) * period r + period r) := by
  obtain ⟨e, _, he2, he3, he4, he5⟩ := count_run env r hn hk t0 ds 0 0 (tickerInit t0 t) w
    (by show t0 = (t0 + 0) % 4294967296; omega)
    (by rw [tickOf_tickerInit]; omega) (by omega) (by omega) hsorted hb
  simp only [Nat.zero_add] at he4 he5
  have hel : DIFFU32 (tickerRunEnd env (ds.map (fun d => (t0 + d) % 4294967296))
      (tickerInit t0 t) w).now t0 = e := by
    rw [he3]; unfold DIFFU32; omega
  have hlag : DIFFU32 (tickerRunEnd env (ds.map (fun d => (t0 + d) % 4294967296))
      (tickerInit t0 t) w).now
      (tickOf r (tickerRunEnd env (ds.map (fun d => (t0 + d) % 4294967296))
        (tickerInit t0 t) w)) =
      e - pulses r (tickerRun env (ds.map (fun d => (t0 + d) % 4294967296))
        (tickerInit t0 t) w) * period r := by
    rw [he3, he4]; unfold DIFFU32; omega
  refine ⟨by rw [hel]; exact he5, by rw [hel, hlag]; omega, fun hne hf => ?_⟩
  have hne2 : ds.map (fun d => (t0 + d) % 4294967296) ≠ [] := by
    intro h; exact hne (List.map_eq_nil_iff.mp h)
  obtain ⟨x, hx, hxe⟩ := runEnd_mem env _ (tickerInit t0 t) w hne2
  have h := run_flag_false_lag env r hn hk _ (tickerInit t0 t) w x hx (by rw [← hxe]; exact hf)
  rw [← hxe, hlag] at h
  rw [hel]
  omega

/-- With tick calls at most one period apart, less than one period is pending after
every call. -/
theorem lag_run {W : Type} (env : cb_env W) (r : rate_t) (hn : keepsNow env)
    (hk : keepsTicks env) (t0 : Nat) (ds : List Nat) :
    ∀ (b : Nat) (t : ticker_t) (w : W), t.now % 4294967296 = (t0 + b) % 4294967296 →
      DIFFU32 t.now (tickOf r t) < period r →
      List.Chain (fun a b => a ≤ b ∧ b ≤ a + period r) b ds →
      ∀ x ∈ tickerRun env (ds.map (fun d => (t0 + d) % 4294967296)) t w,
        DIFFU32 x.t.now (tickOf r x.t) < period r := by
  induction ds with
  | nil => intro b t w _ _ _ x hx; cases hx
  | cons d ds ih =>
    intro b t w hnow hlag hch x hx
    obtain ⟨⟨hbd, hdb⟩, hch2⟩ := List.chain_cons.mp hch
    have hp := period_le r
    obtain ⟨h1, h2⟩ := rate_after_tick env ((t0 + d) % 4294967296) t w r hn hk
    have h3 := tickerTick_now env hn ((t0 + d) % 4294967296) t w
    have hL : DIFFU32 ((t0 + d) % 4294967296) (tickOf r t) =
        DIFFU32 t.now (tickOf r t) + (d - b) := by
      unfold DIFFU32 at hlag ⊢; omega
    have e1 : tickerRun env ((d :: ds).map (fun d => (t0 + d) % 4294967296)) t w =
        tickerTick env ((t0 + d) % 4294967296) t w ::
          tickerRun env (ds.map (fun d => (t0 + d) % 4294967296))
            (tickerTick env ((t0 + d) % 4294967296) t w).t
            (tickerTick env ((t0 + d) % 4294967296) t w).w := rfl
    rw [e1] at hx
    generalize tickerTick env ((t0 + d) % 4294967296) t w = y at h1 h2 h3 hx
    have hy : DIFFU32 y.t.now (tickOf r y.t) < period r := by
      rw [h3, h2]
      by_cases hc : period r ≤ DIFFU32 ((t0 + d) % 4294967296) (tickOf r t)
      · rw [if_pos hc]
        unfold DIFFU32 at hL hlag hc ⊢; omega
      · rw [if_neg hc]; omega
    rcases List.mem_cons.mp hx with rfl | hx
    · exact hy
    · exact ih d y.t y.w (by rw [h3]; omega) hy hch2 x hx

/-- Claim C20.  After `tickerInit` at reading `t0`, let the tick calls come at elapsed
times `ds` such that the first is at most one period after the initialisation and every
next one at most one period after the one before (times never decrease).  Then after
every tick call `elapsed(now, lastFire) < period`: no period of the rate is left pending.
Hence, when the total elapsed time is below `2^32`, the pulse count `c` satisfies
`c * period <= elapsed(now, t0) < c * period + period`.  Callbacks are taken to leave
`now` and the last-fire counters as they find them. -/
theorem timely_ticks_bounded_lag {W : Type} (env : cb_env W) (r : rate_t) (t0 : Nat)
    (ds : List Nat) (t : ticker_t) (w : W) (hn : keepsNow env) (hk : keepsTicks env)
    (htimely : List.Chain (fun a b => a ≤ b ∧ b ≤ a + period r) 0 ds) :
    (∀ x ∈ tickerRun env (ds.map (fun d => (t0 + d) % 4294967296)) (tickerInit t0 t) w,
        DIFFU32 x.t.now (tickOf r x.t) < period r) ∧
    (t0 < 4294967296 → (∀ d ∈ ds, d < 4294967296) →
      pulses r (tickerRun env (ds.map (fun d => (t0 + d) % 4294967296))
          (tickerInit t0 t) w) * period r ≤
        DIFFU32 (tickerRunEnd env (ds.map (fun d => (t0 + d) % 4294967296))
          (tickerInit t0 t) w).now t0 ∧
      DIFFU32 (tickerRunEnd env (ds.map (fun d => (t0 + d) % 4294967296))
          (tickerInit t0 t) w).now t0 <
        pulses r (tickerRun env (ds.map (fun d => (t0 + d) % 4294967296))
          (tickerInit t0 t) w) * period r + period r) := by
  have hpos := period_pos r
  have hlag0 : DIFFU32 (tickerInit t0 t).now (tickOf r (tickerInit t0 t)) < period r := by
    rw [tickOf_tickerInit]
    show DIFFU32 t0 t0 < period r
    unfold DIFFU32; omega
  have hall := lag_run env r hn hk t0 ds 0 (tickerInit t0 t) w
    (by show t0 % 4294967296 = (t0 + 0) % 4294967296; omega) hlag0 htimely
  refine ⟨hall, fun ht0 hb => ?_⟩
  have hsorted : List.Chain (· ≤ ·) 0 ds := List.Chain.imp (fun _ _ h => h.1) htimely
  obtain ⟨e, _, he2, he3, he4, he5⟩ := count_run env r hn hk t0 ds 0 0 (tickerInit t0 t) w
    (by show t0 = (t0 + 0) % 4294967296; omega)
    (by rw [tickOf_tickerInit]; omega) (by omega) (by omega) hsorted hb
  simp only [Nat.zero_add] at he4 he5
  have hel : DIFFU32 (tickerRunEnd env (ds.map (fun d => (t0 + d) % 4294967296))
      (tickerInit t0 t) w).now t0 = e := by
    rw [he3]; unfold DIFFU32; omega
  rw [hel]
  refine ⟨he5, ?_⟩
  by_cases hne : ds = []
  · subst hne
    have h0 : (tickerRunEnd env (([] : List Nat).map (fun d => (t0 + d) % 4294967296))
        (tickerInit t0 t) w).now = t0 := rfl
    rw [h0] at he3
    have : pulses r (tickerRun env (([] : List Nat).map (fun d => (t0 + d) % 4294967296))
        (tickerInit t0 t) w) = 0 := rfl
    rw [this]
    omega
  · have hne2 : ds.map (fun d => (t0 + d) % 4294967296) ≠ [] := by
      intro h; exact hne (List.map_eq_nil_iff.mp h)
    obtain ⟨x, hx, hxe⟩ := runEnd_mem env _ (tickerInit t0 t) w hne2
    have h := hall x hx
    rw [← hxe, he3, he4] at h
    unfold DIFFU32 at h
    omega

theorem rate_never_early_witness :
    (keepsNow envRepeat ∧ keepsTicks envRepeat ∧ (4294967290 : Nat) < 4294967296 ∧
      List.Chain (· ≤ ·) 0 [3, 150, 260, 700] ∧
      (∀ d ∈ [3, 150, 260, 700], d < 4294967296)) ∧
    (tickOf rate_t.Hz5 (tickerRunEnd envRepeat ([3, 150, 260, 700].map (fun d => (4294967290 + d) % 4294967296))
        (tickerInit 4294967290 periodicTicker) ()) =
      (4294967290 + pulses rate_t.Hz5 (tickerRun envRepeat ([3, 150, 260, 700].map (fun d => (4294967290 + d) % 4294967296))
        (tickerInit 4294967290 periodicTicker) ()) * period rate_t.Hz5) % 4294967296 ∧
    pulses rate_t.Hz5 (tickerRun envRepeat ([3, 150, 260, 700].map (fun d => (4294967290 + d) % 4294967296))
        (tickerInit 4294967290 periodicTicker) ()) * period rate_t.Hz5 ≤
      DIFFU32 (tickerRunEnd envRepeat ([3, 150, 260, 700].map (fun d => (4294967290 + d) % 4294967296))
        (tickerInit 4294967290 periodicTicker) ()).now 4294967290 ∧
    pulses rate_t.Hz5 (tickerRun envRepeat ([3, 150, 260, 700].map (fun d => (4294967290 + d) % 4294967296))
        (tickerInit 4294967290 periodicTicker) ()) ≤
      DIFFU32 (tickerRunEnd envRepeat ([3, 150, 260, 700].map (fun d => (4294967290 + d) % 4294967296))
        (tickerInit 4294967290 periodicTicker) ()).now 4294967290 / period rate_t.Hz5) :=
  ⟨⟨fun _ _ _ _ => rfl, fun _ _ _ _ _ => rfl, by decide, by simp, by decide⟩,
    rate_never_early envRepeat rate_t.Hz5 4294967290 [3, 150, 260, 700] periodicTicker ()
      (fun _ _ _ _ => rfl) (fun _ _ _ _ _ => rfl) (by decide) (by simp) (by decide)⟩

theorem pulses_account_witness :
    (keepsNow envRepeat ∧ keepsTicks envRepeat ∧ (4294967290 : Nat) < 4294967296 ∧
      List.Chain (· ≤ ·) 0 [3, 150, 260, 300] ∧
      (∀ d ∈ [3, 150, 260, 300], d < 4294967296) ∧
      HzOf rate_t.Hz5 (tickerRunEnd envRepeat
        ([3, 150, 260, 300].map (fun d => (4294967290 + d) % 4294967296))
        (tickerInit 4294967290 periodicTicker) ()) = false ∧
      pulses rate_t.Hz5 (tickerRun envRepeat
        ([3, 150, 260, 300].map (fun d => (4294967290 + d) % 4294967296))
        (tickerInit 4294967290 periodicTicker) ()) = 1) ∧
    (pulses rate_t.Hz5 (tickerRun envRepeat ([3, 150, 260, 300].map (fun d => (4294967290 + d) % 4294967296))
        (tickerInit 4294967290 periodicTicker) ()) * period rate_t.Hz5 ≤
      DIFFU32 (tickerRunEnd envRepeat ([3, 150, 260, 300].map (fun d => (4294967290 + d) % 4294967296))
        (tickerInit 4294967290 periodicTicker) ()).now 4294967290 ∧
    pulses rate_t.Hz5 (tickerRun envRepeat ([3, 150, 260, 300].map (fun d => (4294967290 + d) % 4294967296))
        (tickerInit 4294967290 periodicTicker) ()) * period rate_t.Hz5 +
      DIFFU32 (tickerRunEnd envRepeat ([3, 150, 260, 300].map (fun d => (4294967290 + d) % 4294967296))
        (tickerInit 4294967290 periodicTicker) ()).now
        (tickOf rate_t.Hz5 (tickerRunEnd envRepeat ([3, 150, 260, 300].map (fun d => (4294967290 + d) % 4294967296))
        (tickerInit 4294967290 periodicTicker) ())) =
      DIFFU32 (tickerRunEnd envRepeat ([3, 150, 260, 300].map (fun d => (4294967290 + d) % 4294967296))
        (tickerInit 4294967290 periodicTicker) ()).now 4294967290 ∧
    (([3, 150, 260, 300] : List Nat) ≠ [] →
      HzOf rate_t.Hz5 (tickerRunEnd envRepeat ([3, 150, 260, 300].map (fun d => (4294967290 + d) % 4294967296))
        (tickerInit 4294967290 periodicTicker) ()) = false →
      DIFFU32 (tickerRunEnd envRepeat ([3, 150, 260, 300].map (fun d => (4294967290 + d) % 4294967296))
        (tickerInit 4294967290 periodicTicker) ()).now 4294967290 <
        pulses rate_t.Hz5 (tickerRun envRepeat ([3, 150, 260, 300].map (fun d => (4294967290 + d) % 4294967296))
        (tickerInit 4294967290 periodicTicker) ()) * period rate_t.Hz5 + period rate_t.Hz5)) :=
  ⟨⟨fun _ _ _ _ => rfl, fun _ _ _ _ _ => rfl, by decide, by simp, by decide, by decide,
      by decide⟩,
    pulses_account envRepeat rate_t.Hz5 4294967290 [3, 150, 260, 300] periodicTicker ()
      (fun _ _ _ _ => rfl) (fun _ _ _ _ _ => rfl) (by decide) (by simp) (by decide)⟩

theorem timely_ticks_bounded_lag_witness :
    (keepsNow envRepeat ∧ keepsTicks envRepeat ∧
      List.Chain (fun a b => a ≤ b ∧ b ≤ a + period rate_t.Hz5) 0 [3, 150, 260, 400] ∧
      (4294967290 : Nat) < 4294967296 ∧ (∀ d ∈ [3, 150, 260, 400], d < 4294967296)) ∧
    (∀ x ∈ (tickerRun envRepeat ([3, 150, 260, 400].map (fun d => (4294967290 + d) % 4294967296))
        (tickerInit 4294967290 periodicTicker) ()),
        DIFFU32 x.t.now (tickOf rate_t.Hz5 x.t) < period rate_t.Hz5) ∧
    (pulses rate_t.Hz5 (tickerRun envRepeat ([3, 150, 260, 400].map (fun d => (4294967290 + d) % 4294967296))
        (tickerInit 4294967290 periodicTicker) ()) * period rate_t.Hz5 ≤
        DIFFU32 (tickerRunEnd envRepeat ([3, 150, 260, 400].map (fun d => (4294967290 + d) % 4294967296))
        (tickerInit 4294967290 periodicTicker) ()).now 4294967290 ∧
      DIFFU32 (tickerRunEnd envRepeat ([3, 150, 260, 400].map (fun d => (4294967290 + d) % 4294967296))
        (tickerInit 4294967290 periodicTicker) ()).now 4294967290 <
        pulses rate_t.Hz5 (tickerRun envRepeat ([3, 150, 260, 400].map (fun d => (4294967290 + d) % 4294967296))
        (tickerInit 4294967290 periodicTicker) ()) * period rate_t.Hz5 + period rate_t.Hz5) :=
  ⟨⟨fun _ _ _ _ => rfl, fun _ _ _ _ _ => rfl,
      by simp [period, syscntPERIOD_Hz5, SYSCNTxMS], by decide, by decide⟩,
    (timely_ticks_bounded_lag envRepeat rate_t.Hz5 4294967290 [3, 150, 260, 400]
      periodicTicker () (fun _ _ _ _ => rfl) (fun _ _ _ _ _ => rfl)
      (by simp [period, syscntPERIOD_Hz5, SYSCNTxMS])).1,
    (timely_ticks_bounded_lag envRepeat rate_t.Hz5 4294967290 [3, 150, 260, 400]
      periodicTicker () (fun _ _ _ _ => rfl) (fun _ _ _ _ _ => rfl)
      (by simp [period, syscntPERIOD_Hz5, SYSCNTxMS])).2 (by decide) (by decide)⟩

/-! ## The 1 ms cadence and catching up after a stall -/

theorem not_dvd_between (p q n : Nat) (h1 : p * q < n) (h2 : n < p * q + p) : ¬ p ∣ n := by
  rintro ⟨c, rfl⟩
  have h3 : q < c := Nat.lt_of_mul_lt_mul_left h1
  have h4 : p * c < p * (q + 1) := by rw [Nat.mul_succ]; exact h2
  have h5 : c < q + 1 := Nat.lt_of_mul_lt_mul_left h4
  omega

/-- One tick call per tick: the flag of a rate is raised exactly in the calls whose number
is a multiple of the period. -/
theorem cadence_run {W : Type} (env : cb_env W) (r : rate_t) (hn : keepsNow env)
    (hk : keepsTicks env) (t0 : Nat) (m : Nat) :
    ∀ (k q : Nat) (t : ticker_t) (w : W),
      tickOf r t % 4294967296 = (t0 + period r * q) % 4294967296 →
      period r * q ≤ k → k < period r * q + period r →
      (tickerRun env ((List.range' (k + 1) m).map (fun j => (t0 + j) % 4294967296)) t w).map
          (fun x => HzOf r x.t) =
        (List.range' (k + 1) m).map (fun j => decide (period r ∣ j)) := by
  induction m with
  | zero => intro k q t w _ _ _; rfl
  | succ m ih =>
    intro k q t w htick hq1 hq2
    have hp := period_le r
    obtain ⟨h1, h2⟩ := rate_after_tick env ((t0 + (k + 1)) % 4294967296) t w r hn hk
    have hL : DIFFU32 ((t0 + (k + 1)) % 4294967296) (tickOf r t) = k + 1 - period r * q := by
      unfold DIFFU32; omega
    rw [hL] at h1 h2
    have e1 : tickerRun env ((List.range' (k + 1) (m + 1)).map
        (fun j => (t0 + j) % 4294967296)) t w =
        tickerTick env ((t0 + (k + 1)) % 4294967296) t w ::
          tickerRun env ((List.range' (k + 1 + 1) m).map (fun j => (t0 + j) % 4294967296))
            (tickerTick env ((t0 + (k + 1)) % 4294967296) t w).t
            (tickerTick env ((t0 + (k + 1)) % 4294967296) t w).w := rfl
    rw [e1, List.range'_succ, List.map_cons, List.map_cons]
    generalize tickerTick env ((t0 + (k + 1)) % 4294967296) t w = x at h1 h2 ⊢
    have hsucc : period r * (q + 1) = period r * q + period r := Nat.mul_succ _ _
    by_cases hc : period r ≤ k + 1 - period r * q
    · rw [if_pos hc] at h2
      have hkq : k + 1 = period r * (q + 1) := by omega
      have hdvd : period r ∣ k + 1 := ⟨q + 1, hkq⟩
      rw [ih (k + 1) (q + 1) x.t x.w (by rw [h2]; omega) (by omega) (by omega), h1,
        decide_eq_true hc, decide_eq_true hdvd]
    · rw [if_neg hc] at h2
      have hnd : ¬ period r ∣ k + 1 := not_dvd_between (period r) q (k + 1) (by omega)
        (by omega)
      rw [ih (k + 1) q x.t x.w (by rw [h2]; exact htick) (by omega) (by omega), h1,
        decide_eq_false hc, decide_eq_false hnd]

/-- Claim C12.  After `tickerInit` at reading `t0`, let the tick calls `k = 1, 2, ..., m`
read `(t0 + k) mod 2^32` (one call per tick).  Then the 1000 Hz flag is 1 after every
call, and the 1 Hz flag is 1 after the `k`-th call iff `k` is a multiple of 1000, for every
`t0` and every length `m` of the run, also when the counter wraps around `2^32` during
the run.  Callbacks are taken to leave `now` and the last-fire counters as they find
them. -/
theorem cadence_1ms_flags {W : Type} (env : cb_env W) (t0 m : Nat) (t : ticker_t) (w : W)
    (hn : keepsNow env) (hk : keepsTicks env) :
    (∀ x ∈ tickerRun env ((List.range' 1 m).map (fun k => (t0 + k) % 4294967296))
        (tickerInit t0 t) w, HzOf rate_t.Hz1000 x.t = true) ∧
      (tickerRun env ((List.range' 1 m).map (fun k => (t0 + k) % 4294967296))
          (tickerInit t0 t) w).map (fun x => HzOf rate_t.Hz1 x.t) =
        (List.range' 1 m).map (fun k => decide (1000 ∣ k)) := by
  constructor
  · intro x hx
    have h := cadence_run env rate_t.Hz1000 hn hk t0 m 0 0 (tickerInit t0 t) w
      (by rw [tickOf_tickerInit]; rfl) (by decide) (by decide)
    have hm : HzOf rate_t.Hz1000 x.t ∈
        (tickerRun env ((List.range' (0 + 1) m).map (fun k => (t0 + k) % 4294967296))
          (tickerInit t0 t) w).map (fun x => HzOf rate_t.Hz1000 x.t) :=
      List.mem_map_of_mem _ hx
    rw [h] at hm
    obtain ⟨j, _, hj⟩ := List.mem_map.mp hm
    rw [← hj]
    exact decide_eq_true (one_dvd j)
  · exact cadence_run env rate_t.Hz1 hn hk t0 m 0 0 (tickerInit t0 t) w
      (by rw [tickOf_tickerInit]; rfl) (by decide) (by decide)

theorem cadence_1ms_flags_witness :
    (keepsNow envRepeat ∧ keepsTicks envRepeat) ∧
    ((∀ x ∈ tickerRun envRepeat
          ((List.range' 1 2500).map (fun k => (4294966000 + k) % 4294967296))
          (tickerInit 4294966000 periodicTicker) (), HzOf rate_t.Hz1000 x.t = true) ∧
      (tickerRun envRepeat
          ((List.range' 1 2500).map (fun k => (4294966000 + k) % 4294967296))
          (tickerInit 4294966000 periodicTicker) ()).map (fun x => HzOf rate_t.Hz1 x.t) =
        (List.range' 1 2500).map (fun k => decide (1000 ∣ k))) :=
  ⟨⟨fun _ _ _ _ => rfl, fun _ _ _ _ _ => rfl⟩,
    cadence_1ms_flags envRepeat 4294966000 2500 periodicTicker ()
      (fun _ _ _ _ => rfl) (fun _ _ _ _ _ => rfl)⟩

/-- A stall of several periods is paid back one period per tick call. -/
theorem catchup_run {W : Type} (env : cb_env W) (r : rate_t) (hn : keepsNow env)
    (hk : keepsTicks env) (l : Nat) (ds : List Nat) :
    ∀ (j b : Nat) (t : ticker_t) (w : W),
      tickOf r t % 4294967296 = (l + j * period r) % 4294967296 →
      List.Chain (· ≤ ·) b ds → (j + ds.length) * period r ≤ b →
      (∀ d ∈ ds, d < 4294967296) →
      (tickerRun env (ds.map (fun d => (l + d) % 4294967296)) t w).map
          (fun x => (HzOf r x.t, tickOf r x.t)) =
        (List.range' (j + 1) ds.length).map
          (fun i => (true, (l + i * period r) % 4294967296)) := by
  induction ds with
  | nil => intro j b t w _ _ _ _; rfl
  | cons d ds ih =>
    intro j b t w htick hch hb hds
    obtain ⟨hbd, hch2⟩ := List.chain_cons.mp hch
    have hd : d < 4294967296 := hds d (List.mem_cons_self d ds)
    have hlen : (j + (d :: ds).length) * period r =
        j * period r + ds.length * period r + period r := by
      rw [List.length_cons, Nat.add_mul, Nat.succ_mul]; omega
    have hsucc : (j + 1) * period r = j * period r + period r := Nat.succ_mul _ _
    have hlen2 : (j + 1 + ds.length) * period r =
        j * period r + ds.length * period r + period r := by
      rw [Nat.add_mul, Nat.succ_mul]; omega
    obtain ⟨h1, h2⟩ := rate_after_tick env ((l + d) % 4294967296) t w r hn hk
    have hL : DIFFU32 ((l + d) % 4294967296) (tickOf r t) = d - j * period r := by
      unfold DIFFU32; omega
    rw [hL] at h1 h2
    have hc : period r ≤ d - j * period r := by omega
    rw [if_pos hc] at h2
    have e1 : tickerRun env ((d :: ds).map (fun d => (l + d) % 4294967296)) t w =
        tickerTick env ((l + d) % 4294967296) t w ::
          tickerRun env (ds.map (fun d => (l + d) % 4294967296))
            (tickerTick env ((l + d) % 4294967296) t w).t
            (tickerTick env ((l + d) % 4294967296) t w).w := rfl
    rw [e1, List.length_cons, List.range'_succ, List.map_cons, List.map_cons]
    generalize tickerTick env ((l + d) % 4294967296) t w = x at h1 h2 ⊢
    have htick2 : tickOf r x.t = (l + (j + 1) * period r) % 4294967296 := by
      rw [h2]; omega
    rw [ih (j + 1) d x.t x.w (by rw [htick2]; omega) hch2 (by omega)
      (fun y hy => hds y (List.mem_cons_of_mem d hy)), h1, decide_eq_true hc, htick2]

/-- Claim C16.  Catch-up.  Let `k` tick calls come at elapsed times `ds` since the
last-fire counter of the rate (the reading at elapsed time `d` being
`(lastFire + d) mod 2^32`), never decreasing and below `2^32`, the first at least
`k * period`: at the first call `elapsed(now, lastFire) >= k * period`.  Then the flag is
1 after each of the `k` calls, and after the `i`-th of them the last-fire counter is
`(lastFire + i * period) mod 2^32`: it advances by exactly one period per call, the `k`
missed periods being neither merged into one call nor dropped.  Callbacks are taken to
leave `now` and the last-fire counters as they find them. -/
theorem catchup_one_period_per_call {W : Type} (env : cb_env W) (r : rate_t) (k : Nat)
    (ds : List Nat) (t : ticker_t) (w : W) (hn : keepsNow env) (hk : keepsTicks env)
    (hlen : ds.length = k) (hstall : List.Chain (· ≤ ·) (k * period r) ds)
    (hb : ∀ d ∈ ds, d < 4294967296) :
    (tickerRun env (ds.map (fun d => (tickOf r t + d) % 4294967296)) t w).map
        (fun x => (HzOf r x.t, tickOf r x.t)) =
      (List.range' 1 k).map (fun i => (true, (tickOf r t + i * period r) % 4294967296)) := by
  have h := catchup_run env r hn hk (tickOf r t) ds 0 (k * period r) t w
    (by simp) hstall (by rw [hlen, Nat.zero_add]) hb
  rw [hlen] at h
  exact h

theorem catchup_one_period_per_call_witness :
    (keepsNow envRepeat ∧ keepsTicks envRepeat ∧
      ([650, 650, 700] : List Nat).length = 3 ∧
      List.Chain (· ≤ ·) (3 * period rate_t.Hz5) [650, 650, 700] ∧
      (∀ d ∈ [650, 650, 700], d < 4294967296)) ∧
    ((tickerRun envRepeat
          ([650, 650, 700].map
            (fun d => (tickOf rate_t.Hz5 (idleTicker 4294967000) + d) % 4294967296))
          (idleTicker 4294967000) ()).map
        (fun x => (HzOf rate_t.Hz5 x.t, tickOf rate_t.Hz5 x.t)) =
      (List.range' 1 3).map
        (fun i => (true,
          (tickOf rate_t.Hz5 (idleTicker 4294967000) + i * period rate_t.Hz5)
            % 4294967296))) :=
  ⟨⟨fun _ _ _ _ => rfl, fun _ _ _ _ _ => rfl, rfl,
      by simp [period, syscntPERIOD_Hz5, SYSCNTxMS], by decide⟩,
    catchup_one_period_per_call envRepeat rate_t.Hz5 3 [650, 650, 700]
      (idleTicker 4294967000) () (fun _ _ _ _ => rfl) (fun _ _ _ _ _ => rfl) rfl
      (by simp [period, syscntPERIOD_Hz5, SYSCNTxMS]) (by decide)⟩

end Ticker
